import Mathlib

/-!
# The ULP metric and verdicts of `src/libm-tester/tester2simdsp.c`

A shallow embedding of the accuracy tester for the single-precision vector
functions: the values of the floating-point types it handles, the two ULP
metrics `countULP` and `countULP2`, the pass/fail conditions of the checks in
`main`, the loop that counts failures, and the random operands (`rnd`, `rnd_fr`,
`rnd_zo` and the strata of `main`) with their 32-bit patterns.

Floating-point values are modelled by their mathematical content: NaN, a signed
infinity, or a rational number.  Conversions between formats round to nearest,
ties to even, on the binary grid of the target format.
-/

namespace Tester

/-! ## Floating-point values -/

/-- A value of one of the binary floating-point types of the program (`float`,
`double`, `long double`, `mpfr_t`): a NaN, an infinity with its sign bit, or a
finite number.  The two zeros are both `fin 0`: the program only compares
zeros with `==` and `!=`, takes their `frexpl` exponent and subtracts them, and
none of these sees the sign of a zero. -/
inductive FVal where
  | nan : FVal
  | inf (neg : Bool) : FVal
  | fin (q : ℚ) : FVal
  deriving DecidableEq

open FVal

/-- C's `isnan`. -/
def isnan : FVal → Bool
  | nan => true
  | _ => false

/-- C's `isinf`, as a truth value. -/
def isinf : FVal → Bool
  | inf _ => true
  | _ => false

/-- Source line 92: `int isnumber(double x) { return !isinf(x) && !isnan(x); }`. -/
def isnumber (x : FVal) : Bool := !isinf x && !isnan x

/-- C's `==` on floating-point operands: false as soon as one operand is a NaN. -/
def feq : FVal → FVal → Bool
  | fin x, fin y => decide (x = y)
  | inf a, inf b => a == b
  | _, _ => false

/-- C's `!=` on floating-point operands: the negation of `==`, so true as soon
as one operand is a NaN. -/
def fne (a b : FVal) : Bool := !feq a b

/-- C's `<` on floating-point operands: false as soon as one operand is a NaN. -/
def flt : FVal → FVal → Bool
  | fin x, fin y => decide (x < y)
  | fin _, inf b => !b
  | inf a, fin _ => a
  | inf a, inf b => a && !b
  | _, _ => false

/-- C's `<=` on floating-point operands. -/
def fle (a b : FVal) : Bool := flt a b || feq a b

/-- C's `>` on floating-point operands. -/
def fgt (a b : FVal) : Bool := flt b a

/-- C's `>=` on floating-point operands. -/
def fge (a b : FVal) : Bool := fle b a

/-- C's `fabs` (and `fabsf`): clears the sign. -/
def fabs : FVal → FVal
  | nan => nan
  | inf _ => inf false
  | fin x => fin |x|

/-- C's unary minus on a floating-point operand. -/
def fneg : FVal → FVal
  | nan => nan
  | inf s => inf (!s)
  | fin x => fin (-x)

/-- Source line 89: `#define POSITIVE_INFINITYf ((float)INFINITY)`. -/
def POSITIVE_INFINITYf : FVal := inf false

/-- Source line 90: `#define NEGATIVE_INFINITYf (-(float)INFINITY)`. -/
def NEGATIVE_INFINITYf : FVal := inf true

/-! ## Rounding to a binary format -/

/-- Round a rational to the nearest integer, a tie going to the even neighbour
(the rule of `GMP_RNDN` and of the default IEEE 754 rounding mode). -/
def roundHalfEven (x : ℚ) : ℤ :=
  let f := ⌊x⌋
  let r := x - f
  if r < 1 / 2 then f
  else if 1 / 2 < r then f + 1
  else if f % 2 = 0 then f
  else f + 1

/-- The exponent `frexp` stores: the `e` with `2^(e-1) ≤ |x| < 2^e`, so that the
significand `x / 2^e` has magnitude in `[1/2, 1)`; `0` for `x = 0`. -/
def frexpExp (x : ℚ) : ℤ := if x = 0 then 0 else Int.log 2 |x| + 1

/-- Round `x` to the nearest multiple of `2^k`, ties to even. -/
def roundAt (k : ℤ) (x : ℚ) : ℚ := (roundHalfEven (x / 2 ^ k) : ℚ) * 2 ^ k

/-- Round `x` to `p` significant bits with no bound on the exponent: the unit in
the last place of a number with `frexp` exponent `e` is `2^(e-p)`. -/
def roundPrec (p : ℕ) (x : ℚ) : ℚ := roundAt (frexpExp x - p) x

/-- The finite value `x` rounds to in an IEEE format with `p` significant bits
whose least positive (subnormal) number is `2^emin`: the grid is never finer
than `2^emin`. -/
def roundGrid (p : ℕ) (emin : ℤ) (x : ℚ) : ℚ := roundAt (max (frexpExp x - p) emin) x

/-- Conversion of a number to an IEEE format with `p` significant bits, least
positive number `2^emin` and finite numbers of magnitude below `2^emax`:
round to nearest even; a rounded magnitude of `2^emax` or more overflows to the
infinity of the sign of `x`. -/
def roundNearest (p : ℕ) (emin emax : ℤ) (x : ℚ) : FVal :=
  let r := roundGrid p emin x
  if (2 : ℚ) ^ emax ≤ |r| then inf (decide (x < 0)) else fin r

/-- Conversion to `double` (binary64: 53 bits, least subnormal `2^-1074`,
overflow at `2^1024`). -/
def toDouble : FVal → FVal
  | nan => nan
  | inf s => inf s
  | fin x => roundNearest 53 (-1074) 1024 x

/-- Conversion to `float` (binary32: 24 bits, least subnormal `2^-149`,
overflow at `2^128`), as done by the assignment of a `double` to a `float`. -/
def toFloat : FVal → FVal
  | nan => nan
  | inf s => inf s
  | fin x => roundNearest 24 (-149) 128 x

/-- A value is a `float` when converting it to `float` changes nothing. -/
def IsFloat (d : FVal) : Prop := toFloat d = d

instance (d : FVal) : Decidable (IsFloat d) := by unfold IsFloat; infer_instance

/-- A decimal constant of type `double` in the source text, such as `3.5` or
`1e+38`: the `double` nearest to the decimal. -/
def dbl (q : ℚ) : FVal := toDouble (fin q)

/-! ## The MPFR and libm primitives used by the metric -/

/-- MPFR's `mpfr_get_d(c, GMP_RNDN)`: the `double` nearest to `c`. -/
def mpfr_get_d (c : FVal) : FVal := toDouble c

/-- The working precision: source line 243, `mpfr_set_default_prec(256)`. -/
def mpfrPrec : ℕ := 256

/-- MPFR's `mpfr_set_d` and `mpfr_set_ld` with `GMP_RNDN`: the argument rounded
to the working precision (the exponent range of MPFR, `2^(±2^62)`, is far
outside of what the tester produces and is not modelled). -/
def mpfr_set : FVal → FVal
  | fin x => fin (roundPrec mpfrPrec x)
  | v => v

/-- MPFR's `mpfr_sub(rop, a, b, GMP_RNDN)`: the difference rounded to the working
precision; `inf - inf` of equal signs and any NaN operand give NaN. -/
def mpfr_sub : FVal → FVal → FVal
  | fin x, fin y => fin (roundPrec mpfrPrec (x - y))
  | fin _, inf b => inf (!b)
  | inf a, fin _ => inf a
  | inf a, inf b => if a = b then nan else inf a
  | _, _ => nan

/-- MPFR's `mpfr_div(rop, a, b, GMP_RNDN)`: the quotient rounded to the working
precision.  A zero divisor is taken as `+0` (the divisor `frb` of the tester is
never zero). -/
def mpfr_div : FVal → FVal → FVal
  | fin x, fin y =>
      if y = 0 then (if x = 0 then nan else inf (decide (x < 0)))
      else fin (roundPrec mpfrPrec (x / y))
  | fin _, inf _ => fin 0
  | inf a, fin y => inf (a != decide (y < 0))
  | _, _ => nan

/-- The exponent `frexpl(x, &e)` stores in `e`.  For an infinity or a NaN the C
standard leaves it unspecified; `0` stands for it (the metric never gets there). -/
def frexpl : FVal → ℤ
  | fin x => frexpExp x
  | _ => 0

/-- C's `ldexpl(1.0, n)`: the `long double` `2^n`. -/
def ldexpl_one (n : ℤ) : FVal := fin ((2 : ℚ) ^ n)

/-- C's `fmaxl`: the larger operand; a NaN operand is ignored. -/
def fmaxl : FVal → FVal → FVal
  | nan, b => b
  | a, nan => a
  | a, b => if flt a b then b else a

/-- Source line 88: `#define DENORMAL_FLT_MIN (1.4012984643248170709e-45f)`, the
`float` nearest to that decimal. -/
def DENORMAL_FLT_MIN : FVal := toFloat (fin 1.4012984643248170709e-45)

/-- The constant `FLT_MIN` of `<float.h>`, the least positive normal `float`. -/
def FLT_MIN : FVal := fin ((2 : ℚ) ^ (-126 : ℤ))

/-! ## The ULP metric -/

/-- Source lines 98 to 121, `double countULP(float d, mpfr_t c)`. -/
def countULP (d c : FVal) : FVal :=
  let c2 := toFloat (mpfr_get_d c)
  if feq c2 (fin 0) && fne d (fin 0) then fin 10000
  else if isnan c2 && isnan d then fin 0
  else if isnan c2 || isnan d then fin 10001
  else if feq c2 POSITIVE_INFINITYf && feq d POSITIVE_INFINITYf then fin 0
  else if feq c2 NEGATIVE_INFINITYf && feq d NEGATIVE_INFINITYf then fin 0
  else if !isnumber c2 || !isnumber d then fin 10002
  else
    let e := frexpl (mpfr_get_d c)
    let frb := mpfr_set (fmaxl (ldexpl_one (e - 24)) DENORMAL_FLT_MIN)
    let frd := mpfr_set d
    let fra := mpfr_sub frd c
    let fra := mpfr_div fra frb
    fabs (mpfr_get_d fra)

/-- Source lines 123 to 146, `double countULP2(float d, mpfr_t c)`. -/
def countULP2 (d c : FVal) : FVal :=
  let c2 := toFloat (mpfr_get_d c)
  if feq c2 (fin 0) && fne d (fin 0) then fin 10000
  else if isnan c2 && isnan d then fin 0
  else if isnan c2 || isnan d then fin 10001
  else if feq c2 POSITIVE_INFINITYf && feq d POSITIVE_INFINITYf then fin 0
  else if feq c2 NEGATIVE_INFINITYf && feq d NEGATIVE_INFINITYf then fin 0
  else if !isnumber c2 || !isnumber d then fin 10002
  else
    let e := frexpl (mpfr_get_d c)
    let frb := mpfr_set (fmaxl (ldexpl_one (e - 24)) FLT_MIN)
    let frd := mpfr_set d
    let fra := mpfr_sub frd c
    let fra := mpfr_div fra frb
    fabs (mpfr_get_d fra)

/-! ## The checks of `main` -/

/-- The statement `ecnt++` in the body of a check: the failure counter goes up by
one when the condition of the check holds. -/
def record (failed : Bool) (ecnt : ℕ) : ℕ := if failed then ecnt + 1 else ecnt

/-- Source line 266: `const float rangemax = 39000;`. -/
def rangemax : FVal := toFloat (fin 39000)

/-- Source lines 349 to 351, the `sinf` check on input `d`, candidate
`t = vget(xsinf(vd), e)` and oracle value `frx`; the metric is stored in a
`float`:
`float u0 = countULP(t, frx);`
`if (u0 != 0 && ((fabs(d) <= rangemax && u0 > 3.5) || fabs(t) > 1 || !isnumber(t)))`. -/
def sinfFails (d t frx : FVal) : Bool :=
  let u0 := toFloat (countULP t frx)
  fne u0 (fin 0) &&
    ((fle (fabs d) rangemax && fgt u0 (dbl 3.5)) || fgt (fabs t) (fin 1) || !isnumber t)

/-- Source lines 434 to 436, the `logf` check:
`double u0 = countULP(t, frx); if (u0 > 3.5)`. -/
def logfFails (t frx : FVal) : Bool := fgt (countULP t frx) (dbl 3.5)

/-- Source lines 441 to 443, the `logf_u1` check:
`double u1 = countULP(t, frx); if (u1 > 1)`. -/
def logf_u1Fails (t frx : FVal) : Bool := fgt (countULP t frx) (fin 1)

/-- Source lines 893 to 895, the `frfrexpf` check:
`double u0 = countULP(t, frx); if (isnumber(d) && u0 != 0)`. -/
def frfrexpfFails (d t frx : FVal) : Bool :=
  isnumber d && fne (countULP t frx) (fin 0)

/-- Source lines 966 to 970, the `fmaf` check on candidate `t` and oracle value
`frx`:
`double u0 = countULP2(t, frx); double c = mpfr_get_d(frx, GMP_RNDN);`
`if ((-1e+36 < c && c < 1e+36 && u0 > 0.5001) || !(u0 <= 0.5001 || isinf(t)))`. -/
def fmafFails (t frx : FVal) : Bool :=
  let u0 := countULP2 t frx
  let c := mpfr_get_d frx
  (flt (fneg (dbl 1e36)) c && flt c (dbl 1e36) && fgt u0 (dbl 0.5001)) ||
    !(fle u0 (dbl 0.5001) || isinf t)

/-! ## The verification loop -/

/-- The two counters of `main` that live across iterations (source line 255,
`int cnt, ecnt = 0;`): the iteration index and the number of failures.  `ecnt`
stays below 1000 plus the number of checks of one iteration; the overflow of the
`int` `cnt` after `2^31` iterations is not modelled. -/
structure LoopState where
  cnt : ℕ
  ecnt : ℕ
  deriving DecidableEq

/-- One iteration of the loop of source line 268: every check of the body, in
order, counts a failure when its condition holds (`verdicts` lists these
conditions, which depend on the random operands, the library under test and
the oracle), then the `for` statement does `cnt++`. -/
def loopBody (verdicts : List Bool) (s : LoopState) : LoopState :=
  { cnt := s.cnt + 1, ecnt := verdicts.foldl (fun e b => record b e) s.ecnt }

/-- The loop `for(cnt = 0; ecnt < 1000; cnt++) { ... }` of source line 268, run for
at most `fuel` iterations from state `s`; `verdicts cnt` are the conditions of
the checks in iteration `cnt`.  `none`: the loop is still running when the
fuel is spent; `some s`: the loop has exited in state `s`. -/
def runLoop (verdicts : ℕ → List Bool) : ℕ → LoopState → Option LoopState
  | 0, s => if s.ecnt < 1000 then none else some s
  | fuel + 1, s =>
      if s.ecnt < 1000 then runLoop verdicts fuel (loopBody (verdicts s.cnt) s) else some s

/-- The state after `n` iterations with the loop condition left out. -/
def iterate (verdicts : ℕ → List Bool) : ℕ → LoopState → LoopState
  | 0, s => s
  | n + 1, s => iterate verdicts n (loopBody (verdicts s.cnt) s)

/-! ## Bit patterns and the random operands -/

/-- The member `f` of the union `conv32_t` (source lines 154 to 158) read after its
member `u32` was written: the binary32 value of a 32-bit pattern, with the sign
in bit 31, the biased exponent in bits 23 to 30 and the fraction in bits 0 to 22. -/
def float_of_bits (u : ℕ) : FVal :=
  let s : ℕ := u / 2 ^ 31 % 2
  let ex : ℕ := u / 2 ^ 23 % 256
  let m : ℕ := u % 2 ^ 23
  if ex = 255 then (if m = 0 then inf (decide (s = 1)) else nan)
  else if ex = 0 then fin ((if s = 1 then -1 else 1) * (m : ℚ) * 2 ^ (-149 : ℤ))
  else fin ((if s = 1 then -1 else 1) * ((2 ^ 23 + m : ℕ) : ℚ) * 2 ^ ((ex : ℤ) - 150))

/-- The member `u32` of the union `conv32_t` read after its member `f` was written.
The values of the embedding keep neither the payload of a NaN nor the sign of a
zero: a NaN is given the pattern `0x7fc00000` and a zero the pattern 0. -/
def bits_of_float : FVal → ℕ
  | nan => 0x7fc00000
  | inf s => if s then 0xff800000 else 0x7f800000
  | fin q =>
    if q = 0 then 0
    else
      let s : ℕ := if q < 0 then 2 ^ 31 else 0
      let e : ℤ := frexpExp q
      if e ≤ -126 then s + ⌊|q| * 2 ^ (149 : ℤ)⌋₊
      else s + (e + 126).toNat * 2 ^ 23 + (⌊|q| * 2 ^ (24 - e)⌋₊ - 2 ^ 23)

/-- The conversion `(uint32_t)x`. -/
def u32 (x : ℕ) : ℕ := x % 2 ^ 32

/-- Source lines 169, 180 and 192 (the build without `ENABLE_SYS_getrandom`):
`c.u32 = (uint32_t)random() | ((uint32_t)random() << 31);` with `r1` the result of
the call on the left and `r2` that of the call on the right (C does not fix which
of the two calls comes first; the callers below take the left one first). -/
def randomBits (r1 r2 : ℕ) : ℕ := u32 r1 ||| u32 (u32 r2 <<< 31)

/-- Source lines 162 to 165, the `switch(random() & 15)` of `rnd` on the selector
`sel = random() & 15`: `some v` when the function returns `v` at once, `none` when
control leaves the `switch`. -/
def rndSelect (sel : ℕ) : Option FVal :=
  match sel with
  | 0 => some (inf false)
  | 1 => some (inf true)
  | _ => none

/-- Source lines 160 to 172, `float rnd()`: the calls of `random()` return
`rs pos`, `rs (pos + 1)`, ...; the result is the value and the position of the
next unused random number. -/
def rnd (rs : ℕ → ℕ) (pos : ℕ) : FVal × ℕ :=
  match rndSelect (rs pos &&& 15) with
  | some v => (v, pos + 1)
  | none => (float_of_bits (randomBits (rs (pos + 1)) (rs (pos + 2))), pos + 3)

/-- Source lines 174 to 184, `float rnd_fr()`: the `do ... while(!isnumber(c.f))`
loop run for at most `fuel` passes; `none` when the fuel is spent. -/
def rnd_fr (rs : ℕ → ℕ) : ℕ → ℕ → Option (FVal × ℕ)
  | 0, _ => none
  | fuel + 1, pos =>
      let c := float_of_bits (randomBits (rs pos) (rs (pos + 1)))
      if !isnumber c then rnd_fr rs fuel (pos + 2) else some (c, pos + 2)

/-- Source lines 186 to 196, `float rnd_zo()`: the loop
`do ... while(!isnumber(c.f) || c.f < -1 || 1 < c.f)` run for at most `fuel`
passes; `none` when the fuel is spent. -/
def rnd_zo (rs : ℕ → ℕ) : ℕ → ℕ → Option (FVal × ℕ)
  | 0, _ => none
  | fuel + 1, pos =>
      let c := float_of_bits (randomBits (rs pos) (rs (pos + 1)))
      if !isnumber c || flt c (fin (-1)) || flt (fin 1) c then rnd_zo rs fuel (pos + 2)
      else some (c, pos + 2)

/-- The product of two `double` operands.  The operands of the tester are finite;
a product with an infinity is the infinity of the product of the signs, except
`inf * 0`, a NaN. -/
def dmul : FVal → FVal → FVal
  | fin x, fin y => toDouble (fin (x * y))
  | fin x, inf b => if x = 0 then nan else inf (b != decide (x < 0))
  | inf a, fin y => if y = 0 then nan else inf (a != decide (y < 0))
  | inf a, inf b => inf (a != b)
  | _, _ => nan

/-- The quotient of two `double` operands (a zero divisor is taken as `+0`; the
divisor of the tester is `RAND_MAX`). -/
def ddiv : FVal → FVal → FVal
  | fin x, fin y =>
      if y = 0 then (if x = 0 then nan else inf (decide (x < 0)))
      else toDouble (fin (x / y))
  | fin _, inf _ => fin 0
  | inf a, fin y => inf (a != decide (y < 0))
  | _, _ => nan

/-- The difference of two `double` operands. -/
def dsub : FVal → FVal → FVal
  | fin x, fin y => toDouble (fin (x - y))
  | fin _, inf b => inf (!b)
  | inf a, fin _ => inf a
  | inf a, inf b => if a = b then nan else inf a
  | _, _ => nan

/-- C's `rint` in the default rounding mode: the nearest integer, ties to even. -/
def rint : FVal → FVal
  | fin x => fin (roundHalfEven x)
  | v => v

/-- The constant `RAND_MAX` of `<stdlib.h>`, the largest result of `random()`. -/
def RAND_MAX : ℕ := 2147483647

/-- The constant `M_PI_4` of `<math.h>`, `0.78539816339744830962` as a `double`. -/
def M_PI_4 : FVal := dbl 0.78539816339744830962

/-- Source line 278, the value stored in `cd.f` from the result `r` of `random()`:
`cd.f = rint((2 * (double)random() / RAND_MAX - 1) * 1e+10) * M_PI_4;`. -/
def snapPiQuarter (r : ℕ) : FVal :=
  toFloat (dmul (rint (dmul (dsub (ddiv (dmul (fin 2) (toDouble (fin r))) (fin RAND_MAX))
    (fin 1)) (dbl 1e10))) M_PI_4)

/-- Source line 279, `cd.i32 += (random() & 0xff) - 0x7f;` on the pattern `bits` of
the union and the result `r` of `random()`: the sum as a 32-bit pattern. -/
def addOffset (bits r : ℕ) : ℕ :=
  (((bits : ℤ) + (((r &&& 0xff : ℕ) : ℤ) - 0x7f)) % 2 ^ 32).toNat

/-- Source lines 278 to 280, the first operand of stratum 1 from the results `r1`
and `r2` of the two calls of `random()`. -/
def nearPiQuarter (r1 r2 : ℕ) : FVal :=
  float_of_bits (addOffset (bits_of_float (snapPiQuarter r1)) r2)

/-- The four operands drawn in one iteration (source lines 247 and 248:
`float d, t;` and `float d2, d3, zo;`). -/
structure Operands where
  d : FVal
  d2 : FVal
  d3 : FVal
  zo : FVal

/-- Source lines 270 to 291, the `switch(cnt & 7)` that draws the operands of
iteration `cnt`, reading the random numbers from position `pos` on; `fuel` bounds
each loop of `rnd_fr` and `rnd_zo`.  The result is the operands and the position
of the next unused random number, `none` when a loop spends its fuel. -/
def sample (rs : ℕ → ℕ) (fuel cnt pos : ℕ) : Option (Operands × ℕ) :=
  match cnt &&& 7 with
  | 0 =>
    let a := rnd rs pos
    let b := rnd rs a.2
    let c := rnd rs b.2
    let z := rnd rs c.2
    some (⟨a.1, b.1, c.1, z.1⟩, z.2)
  | 1 =>
    let d := nearPiQuarter (rs pos) (rs (pos + 1))
    let b := rnd rs (pos + 2)
    let c := rnd rs b.2
    let z := rnd rs c.2
    some (⟨d, b.1, c.1, z.1⟩, z.2)
  | _ =>
    match rnd_fr rs fuel pos with
    | none => none
    | some a =>
      match rnd_fr rs fuel a.2 with
      | none => none
      | some b =>
        match rnd_fr rs fuel b.2 with
        | none => none
        | some c =>
          match rnd_zo rs fuel c.2 with
          | none => none
          | some z => some (⟨a.1, b.1, c.1, z.1⟩, z.2)

/-! ## The `sincospif` checks -/

/-- One lane of a pair of vectors (`vfloat2`): the results `x` (sine) and `y`
(cosine) of a combined function. -/
structure VFloat2 where
  x : FVal
  y : FVal

/-- Source lines 303 and 323: `const double rangemax2 = 1e+7/4;`. -/
def rangemax2 : FVal := ddiv (dbl 1e7) (fin 4)

/-- Source lines 307 to 309, the `sincospif_u05 sin` check, with `sc` the lane of
`xsincospif_u05(vd)`, `sc2` that of `xsincospif_u35(vd)` and `frx` the oracle value:
`double u0 = countULP2(t = vget(sc.x, e), frx);`
`if (u0 != 0 && ((fabs(d) <= rangemax2 && u0 > 0.505) || fabs(t) > 1 || !isnumber(t)))`. -/
def sincospif_u05SinFails (d : FVal) (sc _sc2 : VFloat2) (frx : FVal) : Bool :=
  let t := sc.x
  let u0 := countULP2 t frx
  fne u0 (fin 0) &&
    ((fle (fabs d) rangemax2 && fgt u0 (dbl 0.505)) || fgt (fabs t) (fin 1) || !isnumber t)

/-- Source lines 314 to 316, the `sincospif_u35 sin` check:
`double u1 = countULP2(t = vget(sc2.x, e), frx);`
`if (u1 != 0 && ((fabs(d) <= rangemax2 && u1 > 1.6) || fabs(t) > 1 || !isnumber(t)))`. -/
def sincospif_u35SinFails (d : FVal) (_sc sc2 : VFloat2) (frx : FVal) : Bool :=
  let t := sc2.x
  let u1 := countULP2 t frx
  fne u1 (fin 0) &&
    ((fle (fabs d) rangemax2 && fgt u1 (dbl 1.6)) || fgt (fabs t) (fin 1) || !isnumber t)

/-- Source lines 327 to 329, the `sincospif_u05 cos` check:
`double u0 = countULP2(t = vget(sc.y, e), frx);`
`if (u0 != 0 && ((fabs(d) <= rangemax2 && u0 > 0.505) || fabs(t) > 1 || !isnumber(t)))`. -/
def sincospif_u05CosFails (d : FVal) (sc _sc2 : VFloat2) (frx : FVal) : Bool :=
  let t := sc.y
  let u0 := countULP2 t frx
  fne u0 (fin 0) &&
    ((fle (fabs d) rangemax2 && fgt u0 (dbl 0.505)) || fgt (fabs t) (fin 1) || !isnumber t)

/-- Source lines 334 to 336, the `sincospif_u35 cos` check, which reads `sc.y`:
`double u1 = countULP2(t = vget(sc.y, e), frx);`
`if (u1 != 0 && ((fabs(d) <= rangemax2 && u1 > 1.5) || fabs(t) > 1 || !isnumber(t)))`. -/
def sincospif_u35CosFails (d : FVal) (sc _sc2 : VFloat2) (frx : FVal) : Bool :=
  let t := sc.y
  let u1 := countULP2 t frx
  fne u1 (fin 0) &&
    ((fle (fabs d) rangemax2 && fgt u1 (dbl 1.5)) || fgt (fabs t) (fin 1) || !isnumber t)

/-- Source lines 302 to 340, the two blocks of `sincospif` checks on the failure
counter: `frs` is the oracle value `sinpifr(d)` of the first block and `frc` the
value `cospifr(d)` of the second. -/
def sincospifBlocks (d : FVal) (sc sc2 : VFloat2) (frs frc : FVal) (ecnt : ℕ) : ℕ :=
  record (sincospif_u35CosFails d sc sc2 frc)
    (record (sincospif_u05CosFails d sc sc2 frc)
      (record (sincospif_u35SinFails d sc sc2 frs)
        (record (sincospif_u05SinFails d sc sc2 frs) ecnt)))

/-! ## Rounding lemmas -/

theorem roundHalfEven_intCast (n : ℤ) : roundHalfEven (n : ℚ) = n := by
  simp [roundHalfEven]

theorem le_roundHalfEven {n : ℤ} {x : ℚ} (h : (n : ℚ) ≤ x) : n ≤ roundHalfEven x := by
  have hf : n ≤ ⌊x⌋ := Int.le_floor.mpr h
  unfold roundHalfEven
  simp only
  split_ifs <;> omega

theorem roundHalfEven_le {n : ℤ} {x : ℚ} (h : x ≤ (n : ℚ)) : roundHalfEven x ≤ n := by
  have hf : ⌊x⌋ ≤ n := by
    have := Int.floor_le x
    exact_mod_cast (this.trans h)
  unfold roundHalfEven
  simp only
  by_cases hr : x - (⌊x⌋ : ℚ) < 1 / 2
  · simp only [hr, if_true]; exact hf
  · have hlt : (⌊x⌋ : ℚ) < n := by
      have : (0 : ℚ) < x - ⌊x⌋ := by linarith
      linarith
    have hlt2 : ⌊x⌋ < n := by exact_mod_cast hlt
    simp only [hr, if_false]
    split_ifs <;> omega

theorem roundHalfEven_eq_of_abs_sub_lt {n : ℤ} {x : ℚ} (h : |x - n| < 1 / 2) :
    roundHalfEven x = n := by
  rw [abs_lt] at h
  obtain ⟨h1, h2⟩ := h
  unfold roundHalfEven
  simp only
  by_cases hx : (n : ℚ) ≤ x
  · have hf : ⌊x⌋ = n := by
      rw [Int.floor_eq_iff]; constructor <;> linarith
    rw [hf]
    rw [if_pos h2]
  · push_neg at hx
    have hf : ⌊x⌋ = n - 1 := by
      rw [Int.floor_eq_iff]; push_cast; constructor <;> linarith
    rw [hf]
    have h3 : ¬ (x - ((n - 1 : ℤ) : ℚ) < 1 / 2) := by push_cast; linarith
    have h4 : 1 / 2 < x - ((n - 1 : ℤ) : ℚ) := by push_cast; linarith
    simp only [h3, h4, if_true, if_false]
    omega

theorem frexpExp_spec {x : ℚ} (hx : x ≠ 0) :
    (2 : ℚ) ^ (frexpExp x - 1) ≤ |x| ∧ |x| < (2 : ℚ) ^ frexpExp x := by
  have hpos : 0 < |x| := abs_pos.mpr hx
  unfold frexpExp
  rw [if_neg hx]
  constructor
  · have := Int.zpow_log_le_self (b := 2) (by norm_num) hpos
    simpa using this
  · have := Int.lt_zpow_succ_log_self (b := 2) (by norm_num) |x|
    simpa using this

theorem frexpExp_eq {x : ℚ} {e : ℤ} (h1 : (2 : ℚ) ^ (e - 1) ≤ |x|) (h2 : |x| < (2 : ℚ) ^ e) :
    frexpExp x = e := by
  have hpos : 0 < |x| := lt_of_lt_of_le (by positivity) h1
  have hx : x ≠ 0 := abs_pos.mp hpos
  obtain ⟨s1, s2⟩ := frexpExp_spec hx
  have a : (2 : ℚ) ^ (e - 1) < (2 : ℚ) ^ frexpExp x := lt_of_le_of_lt h1 s2
  have b : (2 : ℚ) ^ (frexpExp x - 1) < (2 : ℚ) ^ e := lt_of_le_of_lt s1 h2
  rw [zpow_lt_zpow_iff_right₀ (by norm_num)] at a b
  omega

theorem two_zpow_pos (k : ℤ) : (0 : ℚ) < (2 : ℚ) ^ k := by positivity

theorem two_zpow_le {a b : ℤ} (h : a ≤ b) : (2 : ℚ) ^ a ≤ (2 : ℚ) ^ b :=
  zpow_le_zpow_right₀ (by norm_num) h

/-- A power of two with a non-negative exponent is an integer. -/
theorem two_zpow_eq_intCast {j : ℤ} (h : 0 ≤ j) : (2 : ℚ) ^ j = (((2 : ℤ) ^ j.toNat : ℤ) : ℚ) := by
  obtain ⟨n, rfl⟩ := Int.eq_ofNat_of_zero_le h
  simp

theorem roundAt_zero (k : ℤ) : roundAt k 0 = 0 := by
  simp [roundAt, roundHalfEven]

theorem roundAt_eq_self {k j : ℤ} (n : ℤ) (h : k ≤ j) :
    roundAt k ((n : ℚ) * 2 ^ j) = (n : ℚ) * 2 ^ j := by
  have hk : (2 : ℚ) ^ k ≠ 0 := (two_zpow_pos k).ne'
  have e1 : (n : ℚ) * 2 ^ j / 2 ^ k = ((n * (2 : ℤ) ^ (j - k).toNat : ℤ) : ℚ) := by
    rw [mul_div_assoc, ← zpow_sub₀ (by norm_num : (2 : ℚ) ≠ 0),
      two_zpow_eq_intCast (by omega : 0 ≤ j - k)]
    push_cast
    rfl
  unfold roundAt
  rw [e1, roundHalfEven_intCast, ← e1]
  field_simp

theorem abs_roundAt_le {k m : ℤ} {x : ℚ} (hk : k ≤ m) (hx : |x| ≤ (2 : ℚ) ^ m) :
    |roundAt k x| ≤ (2 : ℚ) ^ m := by
  have hkpos := two_zpow_pos k
  have hN : (2 : ℚ) ^ m / 2 ^ k = (((2 : ℤ) ^ (m - k).toNat : ℤ) : ℚ) := by
    rw [← zpow_sub₀ (by norm_num : (2 : ℚ) ≠ 0), two_zpow_eq_intCast (by omega : 0 ≤ m - k)]
  rw [abs_le] at hx
  have h1 : x / 2 ^ k ≤ (((2 : ℤ) ^ (m - k).toNat : ℤ) : ℚ) := by
    rw [← hN]; exact div_le_div_of_nonneg_right hx.2 hkpos.le
  have h2 : ((-(2 : ℤ) ^ (m - k).toNat : ℤ) : ℚ) ≤ x / 2 ^ k := by
    rw [Int.cast_neg, ← hN, ← neg_div]; exact div_le_div_of_nonneg_right hx.1 hkpos.le
  have r1 := roundHalfEven_le h1
  have r2 := le_roundHalfEven h2
  have r1q : (roundHalfEven (x / 2 ^ k) : ℚ) ≤ (2 : ℚ) ^ m / 2 ^ k := by
    rw [hN]; exact_mod_cast r1
  have r2q : -((2 : ℚ) ^ m / 2 ^ k) ≤ (roundHalfEven (x / 2 ^ k) : ℚ) := by
    rw [hN]; exact_mod_cast r2
  unfold roundAt
  rw [abs_le]
  constructor
  · have := mul_le_mul_of_nonneg_right r2q hkpos.le
    have e : -((2 : ℚ) ^ m / 2 ^ k) * 2 ^ k = -(2 : ℚ) ^ m := by field_simp
    linarith
  · have := mul_le_mul_of_nonneg_right r1q hkpos.le
    have e : ((2 : ℚ) ^ m / 2 ^ k) * 2 ^ k = (2 : ℚ) ^ m := by field_simp
    linarith

theorem le_abs_roundAt {k m : ℤ} {x : ℚ} (hk : k ≤ m) (hx : (2 : ℚ) ^ m ≤ |x|) :
    (2 : ℚ) ^ m ≤ |roundAt k x| := by
  have hkpos := two_zpow_pos k
  have hN : (2 : ℚ) ^ m / 2 ^ k = (((2 : ℤ) ^ (m - k).toNat : ℤ) : ℚ) := by
    rw [← zpow_sub₀ (by norm_num : (2 : ℚ) ≠ 0), two_zpow_eq_intCast (by omega : 0 ≤ m - k)]
  have e : ((2 : ℚ) ^ m / 2 ^ k) * 2 ^ k = (2 : ℚ) ^ m := by field_simp
  unfold roundAt
  rcases le_abs.mp hx with h | h
  · have h1 : (((2 : ℤ) ^ (m - k).toNat : ℤ) : ℚ) ≤ x / 2 ^ k := by
      rw [← hN]; exact div_le_div_of_nonneg_right h hkpos.le
    have r := le_roundHalfEven h1
    have rq : (2 : ℚ) ^ m / 2 ^ k ≤ (roundHalfEven (x / 2 ^ k) : ℚ) := by
      rw [hN]; exact_mod_cast r
    have := mul_le_mul_of_nonneg_right rq hkpos.le
    rw [e] at this
    exact this.trans (le_abs_self _)
  · have h1 : x / 2 ^ k ≤ ((-(2 : ℤ) ^ (m - k).toNat : ℤ) : ℚ) := by
      rw [Int.cast_neg, ← hN, ← neg_div]
      exact div_le_div_of_nonneg_right (by linarith) hkpos.le
    have r := roundHalfEven_le h1
    have rq : (roundHalfEven (x / 2 ^ k) : ℚ) ≤ -((2 : ℚ) ^ m / 2 ^ k) := by
      rw [hN]; exact_mod_cast r
    have := mul_le_mul_of_nonneg_right rq hkpos.le
    have e2 : -((2 : ℚ) ^ m / 2 ^ k) * 2 ^ k = -(2 : ℚ) ^ m := by field_simp
    rw [e2] at this
    exact (le_neg.mp this).trans (neg_le_abs _)

theorem frexpExp_zero : frexpExp 0 = 0 := by simp [frexpExp]

theorem frexpExp_le_of_abs_le {x : ℚ} {m : ℤ} (hx0 : x ≠ 0) (hx : |x| ≤ (2 : ℚ) ^ m) :
    frexpExp x - 1 ≤ m := by
  have s := (frexpExp_spec hx0).1
  have := s.trans hx
  rwa [zpow_le_zpow_iff_right₀ (by norm_num)] at this

theorem lt_frexpExp_of_le_abs {x : ℚ} {m : ℤ} (hx : (2 : ℚ) ^ m ≤ |x|) :
    m < frexpExp x := by
  have hx0 : x ≠ 0 := abs_pos.mp (lt_of_lt_of_le (two_zpow_pos m) hx)
  have s := (frexpExp_spec hx0).2
  have := lt_of_le_of_lt hx s
  rwa [zpow_lt_zpow_iff_right₀ (by norm_num)] at this

theorem abs_roundGrid_le {p : ℕ} {emin m : ℤ} {x : ℚ} (hp : 1 ≤ p) (hm : emin ≤ m)
    (hx : |x| ≤ (2 : ℚ) ^ m) : |roundGrid p emin x| ≤ (2 : ℚ) ^ m := by
  by_cases hx0 : x = 0
  · subst hx0; unfold roundGrid; rw [roundAt_zero]; simpa using (two_zpow_pos m).le
  · have := frexpExp_le_of_abs_le hx0 hx
    have hp' : (1 : ℤ) ≤ (p : ℤ) := by exact_mod_cast hp
    exact abs_roundAt_le (max_le (by omega) hm) hx

theorem le_abs_roundGrid {p : ℕ} {emin m : ℤ} {x : ℚ} (hp : 1 ≤ p) (hm : emin ≤ m)
    (hx : (2 : ℚ) ^ m ≤ |x|) : (2 : ℚ) ^ m ≤ |roundGrid p emin x| := by
  have hlt := lt_frexpExp_of_le_abs hx
  have hx0 : x ≠ 0 := abs_pos.mp (lt_of_lt_of_le (two_zpow_pos m) hx)
  have hp' : (1 : ℤ) ≤ (p : ℤ) := by exact_mod_cast hp
  unfold roundGrid
  by_cases hk : max (frexpExp x - p) emin ≤ m
  · exact le_abs_roundAt hk hx
  · have hk2 : max (frexpExp x - (p : ℤ)) emin ≤ frexpExp x - 1 := max_le (by omega) (by omega)
    have := le_abs_roundAt hk2 (frexpExp_spec hx0).1
    exact (two_zpow_le (by omega)).trans this

theorem abs_roundPrec_le {p : ℕ} {m : ℤ} {x : ℚ} (hp : 1 ≤ p)
    (hx : |x| ≤ (2 : ℚ) ^ m) : |roundPrec p x| ≤ (2 : ℚ) ^ m := by
  by_cases hx0 : x = 0
  · subst hx0; unfold roundPrec; rw [roundAt_zero]; simpa using (two_zpow_pos m).le
  · have := frexpExp_le_of_abs_le hx0 hx
    have hp' : (1 : ℤ) ≤ (p : ℤ) := by exact_mod_cast hp
    exact abs_roundAt_le (by omega) hx

theorem frexpExp_mul_zpow {x : ℚ} (hx : x ≠ 0) (j : ℤ) :
    frexpExp (x * 2 ^ j) = frexpExp x + j := by
  obtain ⟨s1, s2⟩ := frexpExp_spec hx
  have hj := two_zpow_pos j
  apply frexpExp_eq
  · rw [abs_mul, abs_of_pos hj, show frexpExp x + j - 1 = (frexpExp x - 1) + j by ring,
      zpow_add₀ (by norm_num : (2 : ℚ) ≠ 0)]
    exact mul_le_mul_of_nonneg_right s1 hj.le
  · rw [abs_mul, abs_of_pos hj, zpow_add₀ (by norm_num : (2 : ℚ) ≠ 0)]
    exact mul_lt_mul_of_pos_right s2 hj

theorem roundAt_mul_zpow (k j : ℤ) (x : ℚ) :
    roundAt (k + j) (x * 2 ^ j) = roundAt k x * 2 ^ j := by
  have hj : (2 : ℚ) ^ j ≠ 0 := (two_zpow_pos j).ne'
  have hk : (2 : ℚ) ^ k ≠ 0 := (two_zpow_pos k).ne'
  unfold roundAt
  rw [zpow_add₀ (by norm_num : (2 : ℚ) ≠ 0)]
  have : x * 2 ^ j / (2 ^ k * 2 ^ j) = x / 2 ^ k := by field_simp; ring
  rw [this]
  ring

theorem roundPrec_mul_zpow (p : ℕ) (x : ℚ) (j : ℤ) :
    roundPrec p (x * 2 ^ j) = roundPrec p x * 2 ^ j := by
  by_cases hx : x = 0
  · subst hx; simp [roundPrec, roundAt_zero]
  · unfold roundPrec
    rw [frexpExp_mul_zpow hx, show frexpExp x + j - (p : ℤ) = (frexpExp x - p) + j by ring,
      roundAt_mul_zpow]

theorem roundPrec_div_zpow (p : ℕ) (x : ℚ) (j : ℤ) :
    roundPrec p (x / 2 ^ j) = roundPrec p x / 2 ^ j := by
  rw [div_eq_mul_inv, div_eq_mul_inv, ← zpow_neg, roundPrec_mul_zpow]

theorem frexpExp_zpow (j : ℤ) : frexpExp ((2 : ℚ) ^ j) = j + 1 := by
  apply frexpExp_eq
  · rw [abs_of_pos (two_zpow_pos j)]; simp
  · rw [abs_of_pos (two_zpow_pos j)]
    exact zpow_lt_zpow_right₀ (by norm_num) (by omega)

theorem frexpExp_neg (x : ℚ) : frexpExp (-x) = frexpExp x := by
  simp [frexpExp]

theorem roundPrec_zpow {p : ℕ} (hp : 1 ≤ p) (j : ℤ) : roundPrec p ((2 : ℚ) ^ j) = (2 : ℚ) ^ j := by
  have hp' : (1 : ℤ) ≤ (p : ℤ) := by exact_mod_cast hp
  unfold roundPrec
  rw [frexpExp_zpow]
  have := roundAt_eq_self (k := j + 1 - p) (j := j) 1 (by omega)
  simpa using this

theorem roundPrec_neg_zpow {p : ℕ} (hp : 1 ≤ p) (j : ℤ) :
    roundPrec p (-(2 : ℚ) ^ j) = -(2 : ℚ) ^ j := by
  have hp' : (1 : ℤ) ≤ (p : ℤ) := by exact_mod_cast hp
  unfold roundPrec
  rw [frexpExp_neg, frexpExp_zpow]
  have := roundAt_eq_self (k := j + 1 - p) (j := j) (-1) (by omega)
  simpa using this

theorem roundPrec_idem {p : ℕ} (hp : 1 ≤ p) (y : ℚ) :
    roundPrec p (roundPrec p y) = roundPrec p y := by
  have hp' : (1 : ℤ) ≤ (p : ℤ) := by exact_mod_cast hp
  by_cases hy : y = 0
  · subst hy; simp [roundPrec, roundAt_zero, frexpExp_zero]
  by_cases hr : roundPrec p y = 0
  · rw [hr]; simp [roundPrec, roundAt_zero, frexpExp_zero]
  have hle : |roundPrec p y| ≤ (2 : ℚ) ^ frexpExp y :=
    abs_roundAt_le (by omega) (frexpExp_spec hy).2.le
  have he := frexpExp_le_of_abs_le hr hle
  rcases hle.lt_or_eq with hlt | heq
  · have hlt' : frexpExp (roundPrec p y) ≤ frexpExp y := by
      by_contra hc
      push_neg at hc
      have := (frexpExp_spec hr).1
      have h2 : (2 : ℚ) ^ frexpExp y ≤ (2 : ℚ) ^ (frexpExp (roundPrec p y) - 1) :=
        two_zpow_le (by omega)
      linarith
    have hform : roundPrec p y = (roundHalfEven (y / 2 ^ (frexpExp y - p)) : ℚ) *
        2 ^ (frexpExp y - (p : ℤ)) := rfl
    have := roundAt_eq_self (k := frexpExp (roundPrec p y) - p) (j := frexpExp y - p)
      (roundHalfEven (y / 2 ^ (frexpExp y - p))) (by omega)
    rw [← hform] at this
    exact this
  · rcases abs_eq (two_zpow_pos (frexpExp y)).le |>.mp heq with h | h
    · rw [h]; exact roundPrec_zpow hp _
    · rw [h]; exact roundPrec_neg_zpow hp _

/-! ## Conversions between formats -/

theorem isnan_roundNearest (p : ℕ) (emin emax : ℤ) (x : ℚ) :
    isnan (roundNearest p emin emax x) = false := by
  unfold roundNearest
  simp only
  split_ifs <;> rfl

theorem isnan_toDouble (v : FVal) : isnan (toDouble v) = isnan v := by
  cases v with
  | nan => rfl
  | inf s => rfl
  | fin x => exact isnan_roundNearest 53 (-1074) 1024 x

theorem isnan_toFloat (v : FVal) : isnan (toFloat v) = isnan v := by
  cases v with
  | nan => rfl
  | inf s => rfl
  | fin x => exact isnan_roundNearest 24 (-149) 128 x

/-- Without overflow the conversion returns the rounded number. -/
theorem roundNearest_of_lt {p : ℕ} {emin emax : ℤ} {x : ℚ}
    (h : |roundGrid p emin x| < (2 : ℚ) ^ emax) :
    roundNearest p emin emax x = fin (roundGrid p emin x) := by
  unfold roundNearest
  simp only
  rw [if_neg (not_le.mpr h)]

/-- A magnitude of `2^emax` or more overflows. -/
theorem roundNearest_of_le {p : ℕ} {emin emax : ℤ} {x : ℚ} (hp : 1 ≤ p) (he : emin ≤ emax)
    (h : (2 : ℚ) ^ emax ≤ |x|) :
    roundNearest p emin emax x = inf (decide (x < 0)) := by
  unfold roundNearest
  simp only
  rw [if_pos (le_abs_roundGrid hp he h)]

/-- A number that is a multiple of `2^j`, needs at most `p` bits above `2^j` and is
in range converts to itself. -/
theorem roundNearest_eq_self {p : ℕ} {emin emax : ℤ} {x : ℚ} (n j : ℤ)
    (hx : x = (n : ℚ) * 2 ^ j) (hj : emin ≤ j) (hp : |x| < (2 : ℚ) ^ (j + p))
    (hmax : |x| < (2 : ℚ) ^ emax) : roundNearest p emin emax x = fin x := by
  have hgrid : roundGrid p emin x = x := by
    by_cases hx0 : x = 0
    · rw [hx0]; exact roundAt_zero _
    · have h1 : frexpExp x - 1 < j + p := by
        have := lt_of_le_of_lt (frexpExp_spec hx0).1 hp
        rwa [zpow_lt_zpow_iff_right₀ (by norm_num)] at this
      unfold roundGrid
      rw [hx]
      rw [← hx]
      have := roundAt_eq_self (k := max (frexpExp x - p) emin) (j := j) n
        (max_le (by omega) hj)
      rw [hx] at this ⊢
      exact this
  rw [roundNearest_of_lt (by rw [hgrid]; exact hmax), hgrid]

theorem toFloat_intCast (n : ℤ) (h : |(n : ℚ)| < 2 ^ (24 : ℤ)) : toFloat (fin n) = fin n := by
  show roundNearest 24 (-149) 128 (n : ℚ) = fin n
  refine roundNearest_eq_self n 0 (by simp) (by norm_num) (by simpa using h) ?_
  exact h.trans (by norm_num)

theorem toDouble_intCast (n : ℤ) (h : |(n : ℚ)| < 2 ^ (53 : ℤ)) : toDouble (fin n) = fin n := by
  show roundNearest 53 (-1074) 1024 (n : ℚ) = fin n
  refine roundNearest_eq_self n 0 (by simp) (by norm_num) (by simpa using h) ?_
  exact h.trans (by norm_num)

theorem toFloat_zpow {j : ℤ} (h1 : -149 ≤ j) (h2 : j < 128) :
    toFloat (fin ((2 : ℚ) ^ j)) = fin ((2 : ℚ) ^ j) := by
  show roundNearest 24 (-149) 128 ((2 : ℚ) ^ j) = _
  refine roundNearest_eq_self 1 j (by simp) h1 ?_ ?_
  · rw [abs_of_pos (two_zpow_pos j)]; exact zpow_lt_zpow_right₀ (by norm_num) (by simp)
  · rw [abs_of_pos (two_zpow_pos j)]; exact zpow_lt_zpow_right₀ (by norm_num) h2

theorem toDouble_zpow {j : ℤ} (h1 : -1074 ≤ j) (h2 : j < 1024) :
    toDouble (fin ((2 : ℚ) ^ j)) = fin ((2 : ℚ) ^ j) := by
  show roundNearest 53 (-1074) 1024 ((2 : ℚ) ^ j) = _
  refine roundNearest_eq_self 1 j (by simp) h1 ?_ ?_
  · rw [abs_of_pos (two_zpow_pos j)]; exact zpow_lt_zpow_right₀ (by norm_num) (by simp)
  · rw [abs_of_pos (two_zpow_pos j)]; exact zpow_lt_zpow_right₀ (by norm_num) h2

theorem DENORMAL_FLT_MIN_eq : DENORMAL_FLT_MIN = fin ((2 : ℚ) ^ (-149 : ℤ)) := by
  have he : frexpExp (1.4012984643248170709e-45 : ℚ) = -149 := by
    apply frexpExp_eq
    · rw [abs_of_pos (by norm_num)]; norm_num
    · rw [abs_of_pos (by norm_num)]; norm_num
  have hr : roundHalfEven ((1.4012984643248170709e-45 : ℚ) / 2 ^ (-149 : ℤ)) = 1 := by
    apply roundHalfEven_eq_of_abs_sub_lt
    rw [abs_lt]
    constructor <;> norm_num
  have hg : roundGrid 24 (-149) (1.4012984643248170709e-45 : ℚ) = (2 : ℚ) ^ (-149 : ℤ) := by
    unfold roundGrid roundAt
    rw [he, show max ((-149 : ℤ) - ((24 : ℕ) : ℤ)) (-149) = -149 by norm_num, hr]
    norm_num
  show roundNearest 24 (-149) 128 _ = _
  rw [roundNearest_of_lt, hg]
  rw [hg, abs_of_pos (two_zpow_pos _)]
  exact zpow_lt_zpow_right₀ (by norm_num) (by norm_num)

/-! ## The branches of the metric -/

theorem feq_fin_zero_iff (v : FVal) : feq v (fin 0) = true ↔ v = fin 0 := by
  cases v <;> simp [feq]

theorem fne_fin_zero_iff (v : FVal) : fne v (fin 0) = true ↔ v ≠ fin 0 := by
  cases v <;> simp [fne, feq]

theorem isnumber_iff (v : FVal) : isnumber v = true ↔ ∃ q, v = fin q := by
  cases v <;> simp [isnumber, isinf, isnan]

/-- A reference whose `float` conversion is finite is a finite number below
`2^128` in magnitude, and its `double` conversion does not overflow. -/
theorem of_isnumber_toFloat {c : FVal} (h : isnumber (toFloat (mpfr_get_d c)) = true) :
    ∃ x, c = fin x ∧ |x| < (2 : ℚ) ^ (128 : ℤ) ∧
      mpfr_get_d c = fin (roundGrid 53 (-1074) x) := by
  cases c with
  | nan => simp [mpfr_get_d, toDouble, toFloat, isnumber, isnan, isinf] at h
  | inf s => simp [mpfr_get_d, toDouble, toFloat, isnumber, isnan, isinf] at h
  | fin x =>
    refine ⟨x, rfl, ?_⟩
    by_contra hcon
    have hx : (2 : ℚ) ^ (128 : ℤ) ≤ |x| := by
      by_contra hlt
      push_neg at hlt
      apply hcon
      refine ⟨hlt, ?_⟩
      show roundNearest 53 (-1074) 1024 x = _
      apply roundNearest_of_lt
      have := @abs_roundGrid_le 53 (-1074) (128) _ (by norm_num) (by norm_num)
        hlt.le
      exact lt_of_le_of_lt this (zpow_lt_zpow_right₀ (by norm_num) (by norm_num))
    have hg := @le_abs_roundGrid 53 (-1074) (128) _ (by norm_num)
      (by norm_num) hx
    have hd : mpfr_get_d (fin x) = roundNearest 53 (-1074) 1024 x := rfl
    rw [hd] at h
    unfold roundNearest at h
    simp only at h
    split_ifs at h with ho
    · simp [toFloat, isnumber, isinf] at h
    · have : toFloat (fin (roundGrid 53 (-1074) x)) =
          inf (decide (roundGrid 53 (-1074) x < 0)) :=
        roundNearest_of_le (by norm_num) (by norm_num) hg
      rw [this] at h
      simp [isnumber, isinf] at h

/-- A finite `float` is below `2^128` in magnitude. -/
theorem IsFloat.abs_lt {q : ℚ} (h : IsFloat (fin q)) : |q| < (2 : ℚ) ^ (128 : ℤ) := by
  unfold IsFloat at h
  have h' : roundNearest 24 (-149) 128 q = fin q := h
  unfold roundNearest at h'
  simp only at h'
  by_cases ho : (2 : ℚ) ^ (128 : ℤ) ≤ |roundGrid 24 (-149) q|
  · rw [if_pos ho] at h'; exact absurd h' (by simp)
  · rw [if_neg ho] at h'
    have e : roundGrid 24 (-149) q = q := by simpa using h'
    rw [e] at ho
    exact not_le.mp ho

/-- A finite `float` is a multiple of the unit in its last place. -/
theorem IsFloat.roundGrid_eq {q : ℚ} (h : IsFloat (fin q)) : roundGrid 24 (-149) q = q := by
  unfold IsFloat at h
  have h' : roundNearest 24 (-149) 128 q = fin q := h
  unfold roundNearest at h'
  simp only at h'
  by_cases ho : (2 : ℚ) ^ (128 : ℤ) ≤ |roundGrid 24 (-149) q|
  · rw [if_pos ho] at h'; exact absurd h' (by simp)
  · rw [if_neg ho] at h'
    simpa using h'

/-- A `float` fits in the 256 bits of the working precision. -/
theorem IsFloat.roundPrec_eq {q : ℚ} (h : IsFloat (fin q)) : roundPrec mpfrPrec q = q := by
  have hg := h.roundGrid_eq
  have hform : q = (roundHalfEven (q / 2 ^ (max (frexpExp q - (24 : ℕ)) (-149))) : ℚ) *
      2 ^ (max (frexpExp q - ((24 : ℕ) : ℤ)) (-149)) := hg.symm
  have := roundAt_eq_self (k := frexpExp q - mpfrPrec)
    (j := max (frexpExp q - ((24 : ℕ) : ℤ)) (-149))
    (roundHalfEven (q / 2 ^ (max (frexpExp q - (24 : ℕ)) (-149))))
    (le_max_of_le_left (by show frexpExp q - ((256 : ℕ) : ℤ) ≤ _; omega))
  rw [← hform] at this
  exact this

theorem mpfr_set_of_isFloat {q : ℚ} (h : IsFloat (fin q)) : mpfr_set (fin q) = fin q := by
  show fin (roundPrec mpfrPrec q) = fin q
  rw [h.roundPrec_eq]

theorem fmaxl_fin (a b : ℚ) : fmaxl (fin a) (fin b) = fin (max a b) := by
  unfold fmaxl
  simp only [flt]
  by_cases h : a < b
  · simp [h, max_eq_right h.le]
  · simp [h, max_eq_left (not_lt.mp h)]

theorem max_two_zpow (a b : ℤ) : max ((2 : ℚ) ^ a) ((2 : ℚ) ^ b) = (2 : ℚ) ^ (max a b) := by
  rcases le_total a b with h | h
  · rw [max_eq_right h, max_eq_right (two_zpow_le h)]
  · rw [max_eq_left h, max_eq_left (two_zpow_le h)]

/-- The divisor `frb`: the larger of `2^(e-24)` and the floor `2^fl`, exactly. -/
theorem frb_eq (e fl : ℤ) :
    mpfr_set (fmaxl (ldexpl_one (e - 24)) (fin ((2 : ℚ) ^ fl))) =
      fin ((2 : ℚ) ^ (max (e - 24) fl)) := by
  unfold ldexpl_one
  rw [fmaxl_fin, max_two_zpow]
  show fin (roundPrec mpfrPrec _) = _
  rw [roundPrec_zpow (by norm_num [mpfrPrec])]

/-- The lines after the special cases (source lines 111 to 120 and 136 to 145) for
a finite `float` candidate `q`, a reference `x` below `2^128` and a floor `2^fl`
not below the least subnormal: no operation overflows, the division is exact,
and the value returned is the magnitude of the `double` nearest to the quotient. -/
theorem computed_tail {q x : ℚ} (e fl : ℤ) (hq : IsFloat (fin q))
    (hx : |x| < (2 : ℚ) ^ (128 : ℤ)) (hfl : -149 ≤ fl) :
    fabs (mpfr_get_d (mpfr_div (mpfr_sub (mpfr_set (fin q)) (fin x))
        (mpfr_set (fmaxl (ldexpl_one (e - 24)) (fin ((2 : ℚ) ^ fl)))))) =
      fin |roundGrid 53 (-1074)
        (roundPrec mpfrPrec (q - x) / (2 : ℚ) ^ (max (e - 24) fl))| := by
  have hp : 1 ≤ mpfrPrec := by norm_num [mpfrPrec]
  rw [frb_eq, mpfr_set_of_isFloat hq]
  have hsub : mpfr_sub (fin q) (fin x) = fin (roundPrec mpfrPrec (q - x)) := rfl
  rw [hsub]
  have hne : (2 : ℚ) ^ (max (e - 24) fl) ≠ 0 := (two_zpow_pos _).ne'
  have hdiv : mpfr_div (fin (roundPrec mpfrPrec (q - x))) (fin ((2 : ℚ) ^ (max (e - 24) fl))) =
      fin (roundPrec mpfrPrec (q - x) / (2 : ℚ) ^ (max (e - 24) fl)) := by
    show (if (2 : ℚ) ^ (max (e - 24) fl) = 0 then _ else _) = _
    rw [if_neg hne, roundPrec_div_zpow, roundPrec_idem hp]
  rw [hdiv]
  have hr : |roundPrec mpfrPrec (q - x)| ≤ (2 : ℚ) ^ (129 : ℤ) := by
    apply abs_roundPrec_le hp
    have h1 := hq.abs_lt
    have h2 : |q - x| ≤ |q| + |x| := abs_sub q x
    have h3 : (2 : ℚ) ^ (129 : ℤ) = 2 ^ (128 : ℤ) + 2 ^ (128 : ℤ) := by norm_num
    linarith
  have hv : |roundPrec mpfrPrec (q - x) / (2 : ℚ) ^ (max (e - 24) fl)| ≤
      (2 : ℚ) ^ (278 : ℤ) := by
    rw [abs_div, abs_of_pos (two_zpow_pos _), div_le_iff₀ (two_zpow_pos _)]
    have h4 : (2 : ℚ) ^ (129 : ℤ) ≤ 2 ^ (278 : ℤ) * 2 ^ (max (e - 24) fl) := by
      rw [← zpow_add₀ (by norm_num : (2 : ℚ) ≠ 0)]
      exact two_zpow_le (by have := le_max_right (e - 24) fl; omega)
    exact hr.trans h4
  have hg := @abs_roundGrid_le 53 (-1074) (278) _ (by norm_num) (by norm_num) hv
  show fabs (roundNearest 53 (-1074) 1024 _) = _
  rw [roundNearest_of_lt (lt_of_le_of_lt hg (zpow_lt_zpow_right₀ (by norm_num) (by norm_num)))]
  rfl

/-- Below half of the least subnormal a number rounds to zero. -/
theorem roundGrid_tiny {p : ℕ} {emin : ℤ} {x : ℚ} (hp : 1 ≤ p)
    (hx : |x| < (2 : ℚ) ^ (emin - 1)) : roundGrid p emin x = 0 := by
  have hp' : (1 : ℤ) ≤ (p : ℤ) := by exact_mod_cast hp
  by_cases hx0 : x = 0
  · rw [hx0]; exact roundAt_zero _
  · have h1 : frexpExp x - 1 < emin - 1 := by
      have := lt_of_le_of_lt (frexpExp_spec hx0).1 hx
      rwa [zpow_lt_zpow_iff_right₀ (by norm_num)] at this
    unfold roundGrid
    rw [max_eq_right (by omega)]
    unfold roundAt
    have hz : roundHalfEven (x / 2 ^ emin) = 0 := by
      apply roundHalfEven_eq_of_abs_sub_lt
      rw [Int.cast_zero, sub_zero, abs_div, abs_of_pos (two_zpow_pos emin),
        div_lt_iff₀ (two_zpow_pos emin)]
      have : (2 : ℚ) ^ (emin - 1) = 1 / 2 * 2 ^ emin := by
        rw [zpow_sub₀ (by norm_num : (2 : ℚ) ≠ 0)]; simp; ring
      rwa [this] at hx
    rw [hz]; simp

/-- Below half of the least subnormal a number converts to zero. -/
theorem roundNearest_tiny {p : ℕ} {emin emax : ℤ} {x : ℚ} (hp : 1 ≤ p)
    (hx : |x| < (2 : ℚ) ^ (emin - 1)) : roundNearest p emin emax x = fin 0 := by
  have hg : roundGrid p emin x = 0 := roundGrid_tiny hp hx
  rw [roundNearest_of_lt (by rw [hg]; simpa using two_zpow_pos emax), hg]

theorem countULP_zero_mismatch {d c : FVal} (hc : toFloat (mpfr_get_d c) = fin 0)
    (hd : d ≠ fin 0) : countULP d c = fin 10000 := by
  unfold countULP
  simp only [hc]
  rw [if_pos]
  simp [feq, (fne_fin_zero_iff d).mpr hd]

theorem countULP2_zero_mismatch {d c : FVal} (hc : toFloat (mpfr_get_d c) = fin 0)
    (hd : d ≠ fin 0) : countULP2 d c = fin 10000 := by
  unfold countULP2
  simp only [hc]
  rw [if_pos]
  simp [feq, (fne_fin_zero_iff d).mpr hd]

theorem countULP_both_nan {d c : FVal} (hd : isnan d = true)
    (hc : isnan (toFloat (mpfr_get_d c)) = true) : countULP d c = fin 0 := by
  unfold countULP
  simp only
  generalize toFloat (mpfr_get_d c) = c2 at hc
  cases c2 <;> cases d <;> simp_all [isnan, feq, fne]

theorem countULP2_both_nan {d c : FVal} (hd : isnan d = true)
    (hc : isnan (toFloat (mpfr_get_d c)) = true) : countULP2 d c = fin 0 := by
  unfold countULP2
  simp only
  generalize toFloat (mpfr_get_d c) = c2 at hc
  cases c2 <;> cases d <;> simp_all [isnan, feq, fne]

theorem countULP_one_nan {d c : FVal} (h : isnan (toFloat (mpfr_get_d c)) ≠ isnan d)
    (hz : toFloat (mpfr_get_d c) ≠ fin 0) : countULP d c = fin 10001 := by
  unfold countULP
  simp only
  generalize toFloat (mpfr_get_d c) = c2 at h hz
  cases c2 <;> cases d <;> simp_all [isnan, feq, fne]

theorem countULP2_one_nan {d c : FVal} (h : isnan (toFloat (mpfr_get_d c)) ≠ isnan d)
    (hz : toFloat (mpfr_get_d c) ≠ fin 0) : countULP2 d c = fin 10001 := by
  unfold countULP2
  simp only
  generalize toFloat (mpfr_get_d c) = c2 at h hz
  cases c2 <;> cases d <;> simp_all [isnan, feq, fne]

theorem toFloat_mpfr_get_d_zero : toFloat (mpfr_get_d (fin 0)) = fin 0 := by
  have h1 : mpfr_get_d (fin 0) = fin 0 := by
    show roundNearest 53 (-1074) 1024 0 = _
    exact roundNearest_tiny (by norm_num) (by simpa using two_zpow_pos _)
  rw [h1]
  show roundNearest 24 (-149) 128 0 = _
  exact roundNearest_tiny (by norm_num) (by simpa using two_zpow_pos _)

/-- C1 (amended): when exactly one of the candidate `d` and the reference converted
to single precision is a NaN, `countULP` and `countULP2` both return the
unilateral-NaN sentinel 10001 unless the converted reference is zero; when it is
zero (the NaN is then the candidate) the zero test of source lines 100 and 125
comes first and both return the zero-mismatch sentinel 10000. -/
theorem C1_unilateral_nan (d c : FVal) (h : isnan (toFloat (mpfr_get_d c)) ≠ isnan d) :
    (toFloat (mpfr_get_d c) ≠ fin 0 →
        countULP d c = fin 10001 ∧ countULP2 d c = fin 10001) ∧
      (toFloat (mpfr_get_d c) = fin 0 →
        countULP d c = fin 10000 ∧ countULP2 d c = fin 10000) := by
  refine ⟨fun hz => ⟨countULP_one_nan h hz, countULP2_one_nan h hz⟩, fun hz => ?_⟩
  have hd : d ≠ fin 0 := by
    rintro rfl
    rw [hz] at h
    exact h rfl
  exact ⟨countULP_zero_mismatch hz hd, countULP2_zero_mismatch hz hd⟩

/-- C1, witness: the reference is a NaN and the candidate is 1. -/
theorem C1_unilateral_nan_witness :
    isnan (toFloat (mpfr_get_d nan)) ≠ isnan (fin 1) ∧
      toFloat (mpfr_get_d nan) ≠ fin 0 ∧
      countULP (fin 1) nan = fin 10001 ∧ countULP2 (fin 1) nan = fin 10001 :=
  ⟨by decide, by decide, (C1_unilateral_nan (fin 1) nan (by decide)).1 (by decide)⟩

/-- C1 as stated fails: with the reference 0 and a NaN candidate exactly one of the
two is a NaN, and both metrics return 10000, not 10001. -/
theorem C1_counterexample :
    isnan (toFloat (mpfr_get_d (fin 0))) ≠ isnan nan ∧
      countULP nan (fin 0) = fin 10000 ∧ countULP2 nan (fin 0) = fin 10000 ∧
      countULP nan (fin 0) ≠ fin 10001 ∧ countULP2 nan (fin 0) ≠ fin 10001 := by
  have h1 := countULP_zero_mismatch (d := nan) toFloat_mpfr_get_d_zero (by decide)
  have h2 := countULP2_zero_mismatch (d := nan) toFloat_mpfr_get_d_zero (by decide)
  refine ⟨?_, h1, h2, ?_, ?_⟩
  · rw [toFloat_mpfr_get_d_zero]; decide
  · rw [h1]; simp
  · rw [h2]; simp

/-- The reference `2^-200` is a `double` and is below half of the least subnormal
`float`: it converts to the single-precision zero. -/
theorem toFloat_mpfr_get_d_tiny :
    toFloat (mpfr_get_d (fin ((2 : ℚ) ^ (-200 : ℤ)))) = fin 0 := by
  have h1 : mpfr_get_d (fin ((2 : ℚ) ^ (-200 : ℤ))) = fin ((2 : ℚ) ^ (-200 : ℤ)) :=
    toDouble_zpow (by norm_num) (by norm_num)
  rw [h1]
  show roundNearest 24 (-149) 128 _ = _
  apply roundNearest_tiny (by norm_num)
  rw [abs_of_pos (two_zpow_pos _)]
  exact zpow_lt_zpow_right₀ (by norm_num) (by norm_num)

/-- C2: when the reference converts to a single-precision zero and the candidate
is not equal to zero, `countULP` and `countULP2` both return the zero-mismatch
sentinel 10000. -/
theorem C2_zero_mismatch (d c : FVal) (hc : toFloat (mpfr_get_d c) = fin 0)
    (hd : d ≠ fin 0) : countULP d c = fin 10000 ∧ countULP2 d c = fin 10000 :=
  ⟨countULP_zero_mismatch hc hd, countULP2_zero_mismatch hc hd⟩

/-- C2, witness: the reference `2^-200` rounds to zero in single precision and the
candidate is 1. -/
theorem C2_zero_mismatch_witness :
    toFloat (mpfr_get_d (fin ((2 : ℚ) ^ (-200 : ℤ)))) = fin 0 ∧ (fin 1 : FVal) ≠ fin 0 ∧
      countULP (fin 1) (fin ((2 : ℚ) ^ (-200 : ℤ))) = fin 10000 ∧
      countULP2 (fin 1) (fin ((2 : ℚ) ^ (-200 : ℤ))) = fin 10000 :=
  ⟨toFloat_mpfr_get_d_tiny, by simp,
    C2_zero_mismatch (fin 1) (fin ((2 : ℚ) ^ (-200 : ℤ))) toFloat_mpfr_get_d_tiny (by simp)⟩

/-- C3: when the candidate and the reference converted to single precision are
both NaN, `countULP` and `countULP2` return 0: the zero test before the NaN
tests does not fire, a NaN being different from zero. -/
theorem C3_both_nan (d c : FVal) (hd : isnan d = true)
    (hc : isnan (toFloat (mpfr_get_d c)) = true) :
    countULP d c = fin 0 ∧ countULP2 d c = fin 0 :=
  ⟨countULP_both_nan hd hc, countULP2_both_nan hd hc⟩

/-- C3, witness: candidate and reference are both NaN. -/
theorem C3_both_nan_witness :
    isnan nan = true ∧ isnan (toFloat (mpfr_get_d nan)) = true ∧
      countULP nan nan = fin 0 ∧ countULP2 nan nan = fin 0 :=
  ⟨rfl, rfl, C3_both_nan nan nan rfl rfl⟩

/-- The computed path of `countULP`: a finite `float` candidate `q` and a finite
reference `x` whose single-precision conversion is finite, outside of the
zero-mismatch case. -/
theorem countULP_computed {q x : ℚ} (hq : IsFloat (fin q))
    (hc : isnumber (toFloat (mpfr_get_d (fin x))) = true)
    (hz : ¬ (toFloat (mpfr_get_d (fin x)) = fin 0 ∧ q ≠ 0)) :
    countULP (fin q) (fin x) = fin |roundGrid 53 (-1074) (roundPrec mpfrPrec (q - x) /
      (2 : ℚ) ^ (max (frexpl (mpfr_get_d (fin x)) - 24) (-149)))| := by
  obtain ⟨x', hx', hlt, -⟩ := of_isnumber_toFloat hc
  obtain rfl : x = x' := by simpa using hx'
  obtain ⟨y, hy⟩ := (isnumber_iff _).mp hc
  have hz' : ¬ (y = 0 ∧ q ≠ 0) := by
    rw [hy] at hz
    simpa using hz
  have hbr : (feq (fin y) (fin 0) && fne (fin q) (fin 0)) = false := by
    simp only [feq, fne]
    by_cases h1 : y = 0 <;> by_cases h2 : q = 0 <;> simp_all
  unfold countULP
  simp only [hy, hbr, DENORMAL_FLT_MIN_eq]
  simp only [isnan, isnumber, isinf, feq, POSITIVE_INFINITYf, NEGATIVE_INFINITYf]
  simp only [Bool.false_and, Bool.false_or, Bool.not_false, Bool.and_self, Bool.not_true,
    Bool.or_self, if_false, Bool.false_eq_true]
  exact computed_tail _ _ hq hlt (le_refl _)

/-- The computed path of `countULP2`. -/
theorem countULP2_computed {q x : ℚ} (hq : IsFloat (fin q))
    (hc : isnumber (toFloat (mpfr_get_d (fin x))) = true)
    (hz : ¬ (toFloat (mpfr_get_d (fin x)) = fin 0 ∧ q ≠ 0)) :
    countULP2 (fin q) (fin x) = fin |roundGrid 53 (-1074) (roundPrec mpfrPrec (q - x) /
      (2 : ℚ) ^ (max (frexpl (mpfr_get_d (fin x)) - 24) (-126)))| := by
  obtain ⟨x', hx', hlt, -⟩ := of_isnumber_toFloat hc
  obtain rfl : x = x' := by simpa using hx'
  obtain ⟨y, hy⟩ := (isnumber_iff _).mp hc
  have hz' : ¬ (y = 0 ∧ q ≠ 0) := by
    rw [hy] at hz
    simpa using hz
  have hbr : (feq (fin y) (fin 0) && fne (fin q) (fin 0)) = false := by
    simp only [feq, fne]
    by_cases h1 : y = 0 <;> by_cases h2 : q = 0 <;> simp_all
  unfold countULP2
  simp only [hy, hbr, FLT_MIN]
  simp only [isnan, isnumber, isinf, feq, POSITIVE_INFINITYf, NEGATIVE_INFINITYf]
  simp only [Bool.false_and, Bool.false_or, Bool.not_false, Bool.and_self, Bool.not_true,
    Bool.or_self, if_false, Bool.false_eq_true]
  exact computed_tail _ _ hq hlt (by norm_num)

theorem roundGrid_zpow {p : ℕ} {emin j : ℤ} (hp : 1 ≤ p) (h : emin ≤ j) :
    roundGrid p emin ((2 : ℚ) ^ j) = (2 : ℚ) ^ j := by
  have hp' : (1 : ℤ) ≤ (p : ℤ) := by exact_mod_cast hp
  unfold roundGrid
  rw [frexpExp_zpow]
  have := roundAt_eq_self (k := max (j + 1 - p) emin) (j := j) 1 (max_le (by omega) h)
  simpa using this

/-- The metric on the candidate `2^(j+1)` and the reference `2^j`, both in the range
of `float`: the difference is `2^j` and the quotient a power of two, so that no
operation rounds. -/
theorem countULP_zpow_succ (j : ℤ) (h1 : -149 ≤ j) (h2 : j + 1 < 128) :
    countULP (fin ((2 : ℚ) ^ (j + 1))) (fin ((2 : ℚ) ^ j)) =
        fin ((2 : ℚ) ^ (j - max (j + 1 - 24) (-149))) ∧
      countULP2 (fin ((2 : ℚ) ^ (j + 1))) (fin ((2 : ℚ) ^ j)) =
        fin ((2 : ℚ) ^ (j - max (j + 1 - 24) (-126))) := by
  have hq : IsFloat (fin ((2 : ℚ) ^ (j + 1))) := toFloat_zpow (by omega) h2
  have hd : mpfr_get_d (fin ((2 : ℚ) ^ j)) = fin ((2 : ℚ) ^ j) :=
    toDouble_zpow (by omega) (by omega)
  have hf : toFloat (mpfr_get_d (fin ((2 : ℚ) ^ j))) = fin ((2 : ℚ) ^ j) := by
    rw [hd]; exact toFloat_zpow h1 (by omega)
  have hc : isnumber (toFloat (mpfr_get_d (fin ((2 : ℚ) ^ j)))) = true := by
    rw [hf]; rfl
  have hz : ¬ (toFloat (mpfr_get_d (fin ((2 : ℚ) ^ j))) = fin 0 ∧ (2 : ℚ) ^ (j + 1) ≠ 0) := by
    rw [hf]
    rintro ⟨h, -⟩
    have : (2 : ℚ) ^ j = 0 := by simpa using h
    exact (two_zpow_pos j).ne' this
  have hsub : (2 : ℚ) ^ (j + 1) - 2 ^ j = 2 ^ j := by
    rw [zpow_add_one₀ (by norm_num : (2 : ℚ) ≠ 0)]; ring
  have he : frexpl (mpfr_get_d (fin ((2 : ℚ) ^ j))) = j + 1 := by
    rw [hd]; exact frexpExp_zpow j
  have hp : 1 ≤ mpfrPrec := by norm_num [mpfrPrec]
  constructor
  · rw [countULP_computed hq hc hz, he, hsub, roundPrec_zpow hp,
      ← zpow_sub₀ (by norm_num : (2 : ℚ) ≠ 0),
      roundGrid_zpow (by norm_num) (by have := le_max_left (j + 1 - 24) (-149 : ℤ); omega),
      abs_of_pos (two_zpow_pos _)]
  · rw [countULP2_computed hq hc hz, he, hsub, roundPrec_zpow hp,
      ← zpow_sub₀ (by norm_num : (2 : ℚ) ≠ 0),
      roundGrid_zpow (by norm_num) (by have := le_max_left (j + 1 - 24) (-126 : ℤ); omega),
      abs_of_pos (two_zpow_pos _)]

theorem isFloat_zero : IsFloat (fin 0) :=
  roundNearest_tiny (by norm_num) (by simpa using two_zpow_pos _)

/-- The reference `2^-2000` is below the range of `double`: it converts to zero. -/
theorem mpfr_get_d_underflow : mpfr_get_d (fin ((2 : ℚ) ^ (-2000 : ℤ))) = fin 0 := by
  show roundNearest 53 (-1074) 1024 _ = _
  apply roundNearest_tiny (by norm_num)
  rw [abs_of_pos (two_zpow_pos _)]
  exact zpow_lt_zpow_right₀ (by norm_num) (by norm_num)

theorem toFloat_fin_zero : toFloat (fin 0) = fin 0 := isFloat_zero

/-- C4 (amended): for a finite `float` candidate `q` and a reference `x` whose
single-precision conversion is finite, outside of the zero-reference and
nonzero-candidate case, `countULP` returns the magnitude of the `double` nearest
to `r / max(2^(e-24), 2^-149)` and `countULP2` that of the `double` nearest to
`r / max(2^(e-24), 2^-126)`, where `r` is `q - x` rounded to nearest at the
256-bit working precision and `e` is the `frexpl` exponent of the reference
rounded to `double` (0 when that `double` is zero).  When neither rounding
changes anything the value is `|q - x| / max(2^(e-24), floor)` itself. -/
theorem C4_computed_value (q x : ℚ) (hq : IsFloat (fin q))
    (hc : isnumber (toFloat (mpfr_get_d (fin x))) = true)
    (hz : ¬ (toFloat (mpfr_get_d (fin x)) = fin 0 ∧ q ≠ 0)) :
    (countULP (fin q) (fin x) = fin |roundGrid 53 (-1074) (roundPrec mpfrPrec (q - x) /
        max ((2 : ℚ) ^ (frexpl (mpfr_get_d (fin x)) - 24)) ((2 : ℚ) ^ (-149 : ℤ)))| ∧
      countULP2 (fin q) (fin x) = fin |roundGrid 53 (-1074) (roundPrec mpfrPrec (q - x) /
        max ((2 : ℚ) ^ (frexpl (mpfr_get_d (fin x)) - 24)) ((2 : ℚ) ^ (-126 : ℤ)))|) ∧
    (roundPrec mpfrPrec (q - x) = q - x →
      (roundGrid 53 (-1074) ((q - x) /
          max ((2 : ℚ) ^ (frexpl (mpfr_get_d (fin x)) - 24)) ((2 : ℚ) ^ (-149 : ℤ))) =
        (q - x) / max ((2 : ℚ) ^ (frexpl (mpfr_get_d (fin x)) - 24)) ((2 : ℚ) ^ (-149 : ℤ)) →
        countULP (fin q) (fin x) = fin (|q - x| /
          max ((2 : ℚ) ^ (frexpl (mpfr_get_d (fin x)) - 24)) ((2 : ℚ) ^ (-149 : ℤ)))) ∧
      (roundGrid 53 (-1074) ((q - x) /
          max ((2 : ℚ) ^ (frexpl (mpfr_get_d (fin x)) - 24)) ((2 : ℚ) ^ (-126 : ℤ))) =
        (q - x) / max ((2 : ℚ) ^ (frexpl (mpfr_get_d (fin x)) - 24)) ((2 : ℚ) ^ (-126 : ℤ)) →
        countULP2 (fin q) (fin x) = fin (|q - x| /
          max ((2 : ℚ) ^ (frexpl (mpfr_get_d (fin x)) - 24)) ((2 : ℚ) ^ (-126 : ℤ))))) := by
  have h1 := countULP_computed hq hc hz
  have h2 := countULP2_computed hq hc hz
  rw [← max_two_zpow] at h1 h2
  refine ⟨⟨h1, h2⟩, fun hr => ⟨fun hg => ?_, fun hg => ?_⟩⟩
  · rw [h1, hr, hg, abs_div, abs_of_pos (lt_max_of_lt_left (two_zpow_pos _))]
  · rw [h2, hr, hg, abs_div, abs_of_pos (lt_max_of_lt_left (two_zpow_pos _))]

/-- C4, witness: candidate 1 and reference 1/2. -/
theorem C4_computed_value_witness :
    IsFloat (fin 1) ∧ isnumber (toFloat (mpfr_get_d (fin (1 / 2)))) = true ∧
      ¬ (toFloat (mpfr_get_d (fin (1 / 2))) = fin 0 ∧ (1 : ℚ) ≠ 0) ∧
      countULP (fin 1) (fin (1 / 2)) = fin |roundGrid 53 (-1074)
        (roundPrec mpfrPrec (1 - 1 / 2) /
          max ((2 : ℚ) ^ (frexpl (mpfr_get_d (fin (1 / 2))) - 24)) ((2 : ℚ) ^ (-149 : ℤ)))| := by
  have hq : IsFloat (fin 1) := by
    have := toFloat_intCast 1 (by norm_num)
    simpa [IsFloat] using this
  have hf : toFloat (mpfr_get_d (fin (1 / 2))) = fin (1 / 2) := by
    have e : (1 / 2 : ℚ) = (2 : ℚ) ^ (-1 : ℤ) := by norm_num
    rw [e]
    have hd : mpfr_get_d (fin ((2 : ℚ) ^ (-1 : ℤ))) = fin ((2 : ℚ) ^ (-1 : ℤ)) :=
      toDouble_zpow (by norm_num) (by norm_num)
    rw [hd]
    exact toFloat_zpow (by norm_num) (by norm_num)
  have hc : isnumber (toFloat (mpfr_get_d (fin (1 / 2)))) = true := by rw [hf]; rfl
  have hz : ¬ (toFloat (mpfr_get_d (fin (1 / 2))) = fin 0 ∧ (1 : ℚ) ≠ 0) := by
    rw [hf]; simp
  exact ⟨hq, hc, hz, (C4_computed_value 1 (1 / 2) hq hc hz).1.1⟩

/-- C4 as stated fails: for the candidate 0 and the reference `2^-2000` (a finite
reference that converts to the single-precision zero, with a zero candidate)
the difference `2^-2000` is not zero, so `|d - c| / max(2^(e-24), floor)` is
positive for every exponent `e`, while `countULP` and `countULP2` return 0: the
quotient is below the range of `double`. -/
theorem C4_counterexample :
    IsFloat (fin 0) ∧
      isnumber (toFloat (mpfr_get_d (fin ((2 : ℚ) ^ (-2000 : ℤ))))) = true ∧
      ¬ (toFloat (mpfr_get_d (fin ((2 : ℚ) ^ (-2000 : ℤ)))) = fin 0 ∧ (0 : ℚ) ≠ 0) ∧
      countULP (fin 0) (fin ((2 : ℚ) ^ (-2000 : ℤ))) = fin 0 ∧
      countULP2 (fin 0) (fin ((2 : ℚ) ^ (-2000 : ℤ))) = fin 0 ∧
      ∀ e : ℤ,
        fin (|0 - (2 : ℚ) ^ (-2000 : ℤ)| / max ((2 : ℚ) ^ (e - 24)) ((2 : ℚ) ^ (-149 : ℤ))) ≠
            fin 0 ∧
          fin (|0 - (2 : ℚ) ^ (-2000 : ℤ)| / max ((2 : ℚ) ^ (e - 24)) ((2 : ℚ) ^ (-126 : ℤ))) ≠
            fin 0 := by
  have hc : isnumber (toFloat (mpfr_get_d (fin ((2 : ℚ) ^ (-2000 : ℤ))))) = true := by
    rw [mpfr_get_d_underflow, toFloat_fin_zero]; rfl
  have hz : ¬ (toFloat (mpfr_get_d (fin ((2 : ℚ) ^ (-2000 : ℤ)))) = fin 0 ∧ (0 : ℚ) ≠ 0) := by
    simp
  have hp : 1 ≤ mpfrPrec := by norm_num [mpfrPrec]
  have hv : ∀ fl : ℤ, -149 ≤ fl → roundGrid 53 (-1074)
      (roundPrec mpfrPrec (0 - (2 : ℚ) ^ (-2000 : ℤ)) /
        (2 : ℚ) ^ (max (frexpl (mpfr_get_d (fin ((2 : ℚ) ^ (-2000 : ℤ)))) - 24) fl)) = 0 := by
    intro fl hfl
    rw [mpfr_get_d_underflow, zero_sub, roundPrec_neg_zpow hp]
    apply roundGrid_tiny (by norm_num)
    rw [abs_div, abs_neg, abs_of_pos (two_zpow_pos _), abs_of_pos (two_zpow_pos _),
      ← zpow_sub₀ (by norm_num : (2 : ℚ) ≠ 0)]
    apply zpow_lt_zpow_right₀ (by norm_num)
    have : frexpl (fin 0) = 0 := frexpExp_zero
    rw [this]
    have := le_max_right ((0 : ℤ) - 24) fl
    omega
  refine ⟨isFloat_zero, hc, hz, ?_, ?_, fun e => ⟨?_, ?_⟩⟩
  · rw [countULP_computed isFloat_zero hc hz, hv _ (le_refl _)]; simp
  · rw [countULP2_computed isFloat_zero hc hz, hv _ (by norm_num)]; simp
  · intro h
    have h' := FVal.fin.inj h
    have hpos : (0 : ℚ) < |0 - (2 : ℚ) ^ (-2000 : ℤ)| /
        max ((2 : ℚ) ^ (e - 24)) ((2 : ℚ) ^ (-149 : ℤ)) :=
      div_pos (abs_pos.mpr (by rw [zero_sub]; exact neg_ne_zero.mpr (two_zpow_pos _).ne'))
        (lt_max_of_lt_left (two_zpow_pos _))
    exact hpos.ne' h'
  · intro h
    have h' := FVal.fin.inj h
    have hpos : (0 : ℚ) < |0 - (2 : ℚ) ^ (-2000 : ℤ)| /
        max ((2 : ℚ) ^ (e - 24)) ((2 : ℚ) ^ (-126 : ℤ)) :=
      div_pos (abs_pos.mpr (by rw [zero_sub]; exact neg_ne_zero.mpr (two_zpow_pos _).ne'))
        (lt_max_of_lt_left (two_zpow_pos _))
    exact hpos.ne' h'

/-- The two metrics have the same divisor, hence the same value, as soon as the
exponent taken from the reference is at least -102. -/
theorem countULP_eq_countULP2_of_le (d c : FVal) (h : -102 ≤ frexpl (mpfr_get_d c)) :
    countULP d c = countULP2 d c := by
  have hfrb : mpfr_set (fmaxl (ldexpl_one (frexpl (mpfr_get_d c) - 24)) DENORMAL_FLT_MIN) =
      mpfr_set (fmaxl (ldexpl_one (frexpl (mpfr_get_d c) - 24)) FLT_MIN) := by
    rw [DENORMAL_FLT_MIN_eq, FLT_MIN, frb_eq, frb_eq, max_eq_left (by omega),
      max_eq_left (by omega)]
  unfold countULP countULP2
  simp only [hfrb]

theorem frexpl_mpfr_get_d_ge {x : ℚ} (h : x = 0 ∨ (2 : ℚ) ^ (-103 : ℤ) ≤ |x|) :
    -102 ≤ frexpl (mpfr_get_d (fin x)) := by
  rcases h with rfl | h
  · have : mpfr_get_d (fin 0) = fin 0 :=
      roundNearest_tiny (by norm_num) (by simpa using two_zpow_pos _)
    rw [this]
    show (-102 : ℤ) ≤ frexpExp 0
    rw [frexpExp_zero]; norm_num
  · show -102 ≤ frexpl (roundNearest 53 (-1074) 1024 x)
    unfold roundNearest
    simp only
    split_ifs
    · show (-102 : ℤ) ≤ 0
      norm_num
    · have hg := @le_abs_roundGrid 53 (-1074) (-103) _ (by norm_num)
        (by norm_num) h
      have := lt_frexpExp_of_le_abs hg
      show -102 ≤ frexpExp _
      omega

theorem roundPrec_ne_zero {p : ℕ} {x : ℚ} (hp : 1 ≤ p) (hx : x ≠ 0) :
    roundPrec p x ≠ 0 ∧ frexpExp x - 1 < frexpExp (roundPrec p x) := by
  have h := (frexpExp_spec hx).1
  have hk : frexpExp x - (p : ℤ) ≤ frexpExp x - 1 := by
    have : (1 : ℤ) ≤ (p : ℤ) := by exact_mod_cast hp
    omega
  have hr : (2 : ℚ) ^ (frexpExp x - 1) ≤ |roundPrec p x| := le_abs_roundAt hk h
  refine ⟨?_, lt_frexpExp_of_le_abs hr⟩
  intro h0
  rw [h0, abs_zero] at hr
  exact absurd hr (not_le.mpr (two_zpow_pos _))

theorem roundGrid_eq_roundPrec {p : ℕ} {emin : ℤ} {x : ℚ} (h : emin ≤ frexpExp x - p) :
    roundGrid p emin x = roundPrec p x := by
  unfold roundGrid roundPrec
  rw [max_eq_left h]

/-- A reference whose `double` has a `frexpl` exponent below -102 is finite, not
zero and of magnitude between `2^-1075` and `2^-103`. -/
theorem of_frexpl_lt {x : ℚ} (h : frexpl (mpfr_get_d (fin x)) < -102) :
    x ≠ 0 ∧ (2 : ℚ) ^ (-1075 : ℤ) ≤ |x| ∧ |x| < (2 : ℚ) ^ (-103 : ℤ) := by
  have hlt : |x| < (2 : ℚ) ^ (-103 : ℤ) := by
    by_contra hc
    have := @frexpl_mpfr_get_d_ge x (Or.inr (not_lt.mp hc))
    omega
  have h0 : x ≠ 0 := by
    intro hc
    have := @frexpl_mpfr_get_d_ge x (Or.inl hc)
    omega
  refine ⟨h0, ?_, hlt⟩
  by_contra hc
  have ht : mpfr_get_d (fin x) = fin 0 :=
    @roundNearest_tiny 53 (-1074) 1024 x (by norm_num) (by simpa using not_le.mp hc)
  rw [ht] at h
  have : frexpl (fin 0) = 0 := frexpExp_zero
  omega

/-- Below the exponent -102 the two metrics differ at the candidate 0: the strict
one divides the error by `2^(e-24)` or `2^-149`, the relaxed one by `2^-126`. -/
theorem countULP_ne_countULP2_of_lt {x : ℚ} (h : frexpl (mpfr_get_d (fin x)) < -102) :
    countULP (fin 0) (fin x) ≠ countULP2 (fin 0) (fin x) := by
  obtain ⟨hx0, hlo, hhi⟩ := of_frexpl_lt h
  have hp : 1 ≤ mpfrPrec := by norm_num [mpfrPrec]
  -- the reference converts to a finite `float`
  have hd : mpfr_get_d (fin x) = fin (roundGrid 53 (-1074) x) := by
    apply roundNearest_of_lt
    exact lt_of_le_of_lt (abs_roundGrid_le (by norm_num) (by norm_num) hhi.le)
      (zpow_lt_zpow_right₀ (by norm_num) (by norm_num))
  have hc : isnumber (toFloat (mpfr_get_d (fin x))) = true := by
    rw [hd]
    have : toFloat (fin (roundGrid 53 (-1074) x)) =
        fin (roundGrid 24 (-149) (roundGrid 53 (-1074) x)) := by
      apply roundNearest_of_lt
      have h1 : |roundGrid 53 (-1074) x| ≤ (2 : ℚ) ^ (-103 : ℤ) :=
        abs_roundGrid_le (by norm_num) (by norm_num) hhi.le
      exact lt_of_le_of_lt (abs_roundGrid_le (by norm_num) (by norm_num) h1)
        (zpow_lt_zpow_right₀ (by norm_num) (by norm_num))
    rw [this]; rfl
  have hz : ¬ (toFloat (mpfr_get_d (fin x)) = fin 0 ∧ (0 : ℚ) ≠ 0) := by simp
  rw [countULP_computed isFloat_zero hc hz, countULP2_computed isFloat_zero hc hz]
  -- the rounded difference and its exponent
  have hnx : (0 : ℚ) - x ≠ 0 := by rw [zero_sub]; exact neg_ne_zero.mpr hx0
  obtain ⟨hr0, hre⟩ := roundPrec_ne_zero hp hnx
  have hfx : -1075 < frexpExp (0 - x) := by
    apply lt_frexpExp_of_le_abs
    rw [zero_sub, abs_neg]; exact hlo
  generalize roundPrec mpfrPrec (0 - x) = r at hr0 hre
  generalize frexpl (mpfr_get_d (fin x)) = e at h
  have hm2 : max (e - 24) (-126) = -126 := max_eq_right (by omega)
  rw [hm2]
  obtain ⟨k, hk1, hk⟩ : ∃ k : ℤ, 1 ≤ k ∧ max (e - 24) (-149) = -126 - k := by
    refine ⟨-126 - max (e - 24) (-149), ?_, by ring⟩
    have : max (e - 24) (-149) < -126 := max_lt (by omega) (by norm_num)
    omega
  have hk0 : k ≤ 23 := by
    have := le_max_right (e - 24) (-149)
    omega
  rw [hk]
  -- both quotients are in the normal range of `double`
  set u : ℚ := r / (2 : ℚ) ^ (-126 : ℤ) with hu
  have hu0 : u ≠ 0 := div_ne_zero hr0 (two_zpow_pos _).ne'
  have hue : frexpExp u = frexpExp r + 126 := by
    have : u = r * (2 : ℚ) ^ (126 : ℤ) := by
      rw [hu, div_eq_mul_inv, ← zpow_neg]; norm_num
    rw [this, frexpExp_mul_zpow hr0]
  have hq : r / (2 : ℚ) ^ (-126 - k) = u * (2 : ℚ) ^ k := by
    rw [hu, zpow_sub₀ (by norm_num : (2 : ℚ) ≠ 0)]
    field_simp
    ring
  rw [hq]
  have hg1 : roundGrid 53 (-1074) u = roundPrec 53 u :=
    roundGrid_eq_roundPrec (by rw [hue]; push_cast; omega)
  have hg2 : roundGrid 53 (-1074) (u * (2 : ℚ) ^ k) = roundPrec 53 u * (2 : ℚ) ^ k := by
    rw [roundGrid_eq_roundPrec (by rw [frexpExp_mul_zpow hu0, hue]; push_cast; omega),
      roundPrec_mul_zpow]
  rw [hg1, hg2]
  obtain ⟨hv0, -⟩ := @roundPrec_ne_zero 53 u (by norm_num) hu0
  intro heq
  have heq' := FVal.fin.inj heq
  rw [abs_mul, abs_of_pos (two_zpow_pos k)] at heq'
  have hvpos : 0 < |roundPrec 53 u| := abs_pos.mpr hv0
  have h2k : (1 : ℚ) < (2 : ℚ) ^ k := by
    have := zpow_lt_zpow_right₀ (by norm_num : (1 : ℚ) < 2) (by omega : (0 : ℤ) < k)
    simpa using this
  nlinarith

/-- For a given reference the two metrics agree at every candidate exactly when
the `frexpl` exponent of the reference rounded to `double` is at least -102,
that is when `2^(e-24)` is at least the relaxed floor `2^-126`. -/
theorem countULP_eq_countULP2_iff (c : FVal) :
    (∀ d, countULP d c = countULP2 d c) ↔ -102 ≤ frexpl (mpfr_get_d c) := by
  constructor
  · intro h
    by_contra hc
    cases c with
    | nan => exact hc (by show (-102 : ℤ) ≤ 0; norm_num)
    | inf s => exact hc (by show (-102 : ℤ) ≤ 0; norm_num)
    | fin x => exact countULP_ne_countULP2_of_lt (not_le.mp hc) (h (fin 0))
  · intro h d
    exact countULP_eq_countULP2_of_le d c h

/-- C5 (amended): for every candidate `d` and every reference `c` that is zero,
non-finite (an infinity or a NaN), or of magnitude at least `2^-103`,
`countULP d c` equals `countULP2 d c`: the strict and relaxed variants differ
only for nonzero finite references of magnitude below `2^-103`. -/
theorem C5_variants_agree (d c : FVal)
    (h : c = fin 0 ∨ isnumber c = false ∨ fle (fin ((2 : ℚ) ^ (-103 : ℤ))) (fabs c) = true) :
    countULP d c = countULP2 d c := by
  apply countULP_eq_countULP2_of_le
  cases c with
  | nan => show (-102 : ℤ) ≤ 0; norm_num
  | inf s => show (-102 : ℤ) ≤ 0; norm_num
  | fin x =>
    apply frexpl_mpfr_get_d_ge
    rcases h with h | h | h
    · left; simpa using h
    · simp [isnumber, isinf, isnan] at h
    · right
      simp only [fle, fabs, flt, feq, Bool.or_eq_true, decide_eq_true_eq] at h
      rcases h with h | h
      · exact h.le
      · exact h.le

/-- C5, witness: the reference `2^-103`, the least magnitude of the amended
claim, with the candidate `2^-102`.  The scale `2^(e-24)` is `2^-126` there, the
relaxed floor itself, and both metrics give `2^23`. -/
theorem C5_variants_agree_witness :
    ((fin ((2 : ℚ) ^ (-103 : ℤ)) : FVal) = fin 0 ∨
        isnumber (fin ((2 : ℚ) ^ (-103 : ℤ))) = false ∨
        fle (fin ((2 : ℚ) ^ (-103 : ℤ))) (fabs (fin ((2 : ℚ) ^ (-103 : ℤ)))) = true) ∧
      countULP (fin ((2 : ℚ) ^ (-102 : ℤ))) (fin ((2 : ℚ) ^ (-103 : ℤ))) =
        countULP2 (fin ((2 : ℚ) ^ (-102 : ℤ))) (fin ((2 : ℚ) ^ (-103 : ℤ))) ∧
      countULP (fin ((2 : ℚ) ^ (-102 : ℤ))) (fin ((2 : ℚ) ^ (-103 : ℤ))) = fin (2 ^ 23) := by
  have h : fle (fin ((2 : ℚ) ^ (-103 : ℤ))) (fabs (fin ((2 : ℚ) ^ (-103 : ℤ)))) = true := by
    simp only [fle, fabs, flt, feq, Bool.or_eq_true, decide_eq_true_eq]
    right
    rw [abs_of_pos (two_zpow_pos _)]
  obtain ⟨h1, -⟩ := countULP_zpow_succ (-103) (by norm_num) (by norm_num)
  have e1 : ((-103 : ℤ) + 1) = -102 := by norm_num
  have e2 : (-103 : ℤ) - max (-103 + 1 - 24) (-149) = 23 := by norm_num
  rw [e2, e1] at h1
  refine ⟨Or.inr (Or.inr h), C5_variants_agree _ _ (Or.inr (Or.inr h)), ?_⟩
  rw [h1]; norm_num

/-- C5 as stated fails: the reference `2^-104` is a normal single-precision number
(at least `2^-126`), and for the candidate `2^-103` the strict metric is `2^23`
and the relaxed one `2^22`. -/
theorem C5_counterexample :
    (2 : ℚ) ^ (-126 : ℤ) ≤ |(2 : ℚ) ^ (-104 : ℤ)| ∧
      countULP (fin ((2 : ℚ) ^ (-103 : ℤ))) (fin ((2 : ℚ) ^ (-104 : ℤ))) = fin (2 ^ 23) ∧
      countULP2 (fin ((2 : ℚ) ^ (-103 : ℤ))) (fin ((2 : ℚ) ^ (-104 : ℤ))) = fin (2 ^ 22) ∧
      countULP (fin ((2 : ℚ) ^ (-103 : ℤ))) (fin ((2 : ℚ) ^ (-104 : ℤ))) ≠
        countULP2 (fin ((2 : ℚ) ^ (-103 : ℤ))) (fin ((2 : ℚ) ^ (-104 : ℤ))) := by
  obtain ⟨h1, h2⟩ := countULP_zpow_succ (-104) (by norm_num) (by norm_num)
  have e1 : ((-104 : ℤ) + 1) = -103 := by norm_num
  have e2 : (-104 : ℤ) - max (-104 + 1 - 24) (-149) = 23 := by norm_num
  have e3 : (-104 : ℤ) - max (-104 + 1 - 24) (-126) = 22 := by norm_num
  rw [e2, e1] at h1
  rw [e3, e1] at h2
  have h1' : countULP (fin ((2 : ℚ) ^ (-103 : ℤ))) (fin ((2 : ℚ) ^ (-104 : ℤ))) = fin (2 ^ 23) := by
    rw [h1]; norm_num
  have h2' : countULP2 (fin ((2 : ℚ) ^ (-103 : ℤ))) (fin ((2 : ℚ) ^ (-104 : ℤ))) = fin (2 ^ 22) := by
    rw [h2]; norm_num
  refine ⟨?_, h1', h2', ?_⟩
  · rw [abs_of_pos (two_zpow_pos _)]
    exact two_zpow_le (by norm_num)
  · rw [h1', h2']
    intro h
    have := FVal.fin.inj h
    norm_num at this

/-- When the candidate or the converted reference is not a finite number, the
metric returns before the computed path, with 0 or one of the three sentinels. -/
theorem countULP_special {d c : FVal}
    (h : isnumber (toFloat (mpfr_get_d c)) = false ∨ isnumber d = false) :
    countULP d c = fin 0 ∨ countULP d c = fin 10000 ∨ countULP d c = fin 10001 ∨
      countULP d c = fin 10002 := by
  unfold countULP
  simp only
  generalize toFloat (mpfr_get_d c) = c2 at h
  cases c2 with
  | nan => cases d <;> simp [isnan, feq, fne, isnumber, isinf]
  | inf a =>
    cases d with
    | nan => simp [isnan, feq, fne, isnumber, isinf]
    | inf b =>
      cases a <;> cases b <;>
        simp [isnan, feq, fne, isnumber, isinf, POSITIVE_INFINITYf, NEGATIVE_INFINITYf]
    | fin q =>
      cases a <;>
        simp [isnan, feq, fne, isnumber, isinf, POSITIVE_INFINITYf, NEGATIVE_INFINITYf]
  | fin y =>
    cases d with
    | nan => by_cases hy : y = 0 <;> simp [isnan, feq, fne, isnumber, isinf, hy]
    | inf b =>
      by_cases hy : y = 0 <;>
        simp [isnan, feq, fne, isnumber, isinf, POSITIVE_INFINITYf, NEGATIVE_INFINITYf, hy]
    | fin q => simp [isnumber, isinf, isnan] at h

/-- The same for `countULP2`. -/
theorem countULP2_special {d c : FVal}
    (h : isnumber (toFloat (mpfr_get_d c)) = false ∨ isnumber d = false) :
    countULP2 d c = fin 0 ∨ countULP2 d c = fin 10000 ∨ countULP2 d c = fin 10001 ∨
      countULP2 d c = fin 10002 := by
  unfold countULP2
  simp only
  generalize toFloat (mpfr_get_d c) = c2 at h
  cases c2 with
  | nan => cases d <;> simp [isnan, feq, fne, isnumber, isinf]
  | inf a =>
    cases d with
    | nan => simp [isnan, feq, fne, isnumber, isinf]
    | inf b =>
      cases a <;> cases b <;>
        simp [isnan, feq, fne, isnumber, isinf, POSITIVE_INFINITYf, NEGATIVE_INFINITYf]
    | fin q =>
      cases a <;>
        simp [isnan, feq, fne, isnumber, isinf, POSITIVE_INFINITYf, NEGATIVE_INFINITYf]
  | fin y =>
    cases d with
    | nan => by_cases hy : y = 0 <;> simp [isnan, feq, fne, isnumber, isinf, hy]
    | inf b =>
      by_cases hy : y = 0 <;>
        simp [isnan, feq, fne, isnumber, isinf, POSITIVE_INFINITYf, NEGATIVE_INFINITYf, hy]
    | fin q => simp [isnumber, isinf, isnan] at h

/-- The value of `countULP` on a `float` candidate is 0, a sentinel, or the
magnitude computed on the last lines. -/
theorem countULP_cases (d c : FVal) (hd : IsFloat d) :
    countULP d c = fin 0 ∨ countULP d c = fin 10000 ∨ countULP d c = fin 10001 ∨
      countULP d c = fin 10002 ∨
      ∃ q x, d = fin q ∧ c = fin x ∧ countULP d c =
        fin |roundGrid 53 (-1074) (roundPrec mpfrPrec (q - x) /
          (2 : ℚ) ^ (max (frexpl (mpfr_get_d (fin x)) - 24) (-149)))| := by
  by_cases h1 : isnumber (toFloat (mpfr_get_d c)) = true
  · by_cases h2 : isnumber d = true
    · obtain ⟨q, rfl⟩ := (isnumber_iff d).mp h2
      obtain ⟨x, rfl, -, -⟩ := of_isnumber_toFloat h1
      by_cases hz : toFloat (mpfr_get_d (fin x)) = fin 0 ∧ q ≠ 0
      · right; left
        exact countULP_zero_mismatch hz.1 (by simpa using hz.2)
      · right; right; right; right
        exact ⟨q, x, rfl, rfl, countULP_computed hd h1 hz⟩
    · rcases countULP_special (c := c) (Or.inr (by simpa using h2)) with h | h | h | h
      · exact Or.inl h
      · exact Or.inr (Or.inl h)
      · exact Or.inr (Or.inr (Or.inl h))
      · exact Or.inr (Or.inr (Or.inr (Or.inl h)))
  · rcases countULP_special (d := d) (Or.inl (by simpa using h1)) with h | h | h | h
    · exact Or.inl h
    · exact Or.inr (Or.inl h)
    · exact Or.inr (Or.inr (Or.inl h))
    · exact Or.inr (Or.inr (Or.inr (Or.inl h)))

/-- The same for `countULP2`. -/
theorem countULP2_cases (d c : FVal) (hd : IsFloat d) :
    countULP2 d c = fin 0 ∨ countULP2 d c = fin 10000 ∨ countULP2 d c = fin 10001 ∨
      countULP2 d c = fin 10002 ∨
      ∃ q x, d = fin q ∧ c = fin x ∧ countULP2 d c =
        fin |roundGrid 53 (-1074) (roundPrec mpfrPrec (q - x) /
          (2 : ℚ) ^ (max (frexpl (mpfr_get_d (fin x)) - 24) (-126)))| := by
  by_cases h1 : isnumber (toFloat (mpfr_get_d c)) = true
  · by_cases h2 : isnumber d = true
    · obtain ⟨q, rfl⟩ := (isnumber_iff d).mp h2
      obtain ⟨x, rfl, -, -⟩ := of_isnumber_toFloat h1
      by_cases hz : toFloat (mpfr_get_d (fin x)) = fin 0 ∧ q ≠ 0
      · right; left
        exact countULP2_zero_mismatch hz.1 (by simpa using hz.2)
      · right; right; right; right
        exact ⟨q, x, rfl, rfl, countULP2_computed hd h1 hz⟩
    · rcases countULP2_special (c := c) (Or.inr (by simpa using h2)) with h | h | h | h
      · exact Or.inl h
      · exact Or.inr (Or.inl h)
      · exact Or.inr (Or.inr (Or.inl h))
      · exact Or.inr (Or.inr (Or.inr (Or.inl h)))
  · rcases countULP2_special (d := d) (Or.inl (by simpa using h1)) with h | h | h | h
    · exact Or.inl h
    · exact Or.inr (Or.inl h)
    · exact Or.inr (Or.inr (Or.inl h))
    · exact Or.inr (Or.inr (Or.inr (Or.inl h)))

/-- C6: for a `float` candidate and any reference, `countULP` and `countULP2`
return a finite number that is not negative, never a NaN and never an infinity:
0 or a sentinel 10000, 10001 or 10002 from the early returns, or else the value
of the computed path, where candidate and reference are both finite; and the
divisor `frb` of the computed path is a finite, strictly positive number whatever
the exponent `e`. -/
theorem C6_nonneg_finite (d c : FVal) (hd : IsFloat d) :
    ((∃ u : ℚ, 0 ≤ u ∧ countULP d c = fin u) ∧
        (countULP d c = fin 0 ∨ countULP d c = fin 10000 ∨ countULP d c = fin 10001 ∨
          countULP d c = fin 10002 ∨ (isnumber d = true ∧ isnumber c = true))) ∧
      ((∃ u : ℚ, 0 ≤ u ∧ countULP2 d c = fin u) ∧
        (countULP2 d c = fin 0 ∨ countULP2 d c = fin 10000 ∨ countULP2 d c = fin 10001 ∨
          countULP2 d c = fin 10002 ∨ (isnumber d = true ∧ isnumber c = true))) ∧
      ∀ e : ℤ, (∃ s : ℚ, 0 < s ∧
          mpfr_set (fmaxl (ldexpl_one (e - 24)) DENORMAL_FLT_MIN) = fin s) ∧
        ∃ s : ℚ, 0 < s ∧ mpfr_set (fmaxl (ldexpl_one (e - 24)) FLT_MIN) = fin s := by
  refine ⟨?_, ?_, fun e => ⟨?_, ?_⟩⟩
  · rcases countULP_cases d c hd with h | h | h | h | ⟨q, x, hq, hx, h⟩
    · exact ⟨⟨0, le_refl _, h⟩, Or.inl h⟩
    · exact ⟨⟨10000, by norm_num, h⟩, Or.inr (Or.inl h)⟩
    · exact ⟨⟨10001, by norm_num, h⟩, Or.inr (Or.inr (Or.inl h))⟩
    · exact ⟨⟨10002, by norm_num, h⟩, Or.inr (Or.inr (Or.inr (Or.inl h)))⟩
    · refine ⟨⟨_, abs_nonneg _, h⟩, Or.inr (Or.inr (Or.inr (Or.inr ?_)))⟩
      rw [hq, hx]; exact ⟨rfl, rfl⟩
  · rcases countULP2_cases d c hd with h | h | h | h | ⟨q, x, hq, hx, h⟩
    · exact ⟨⟨0, le_refl _, h⟩, Or.inl h⟩
    · exact ⟨⟨10000, by norm_num, h⟩, Or.inr (Or.inl h)⟩
    · exact ⟨⟨10001, by norm_num, h⟩, Or.inr (Or.inr (Or.inl h))⟩
    · exact ⟨⟨10002, by norm_num, h⟩, Or.inr (Or.inr (Or.inr (Or.inl h)))⟩
    · refine ⟨⟨_, abs_nonneg _, h⟩, Or.inr (Or.inr (Or.inr (Or.inr ?_)))⟩
      rw [hq, hx]; exact ⟨rfl, rfl⟩
  · exact ⟨_, two_zpow_pos _, by rw [DENORMAL_FLT_MIN_eq, frb_eq]⟩
  · exact ⟨_, two_zpow_pos _, by rw [FLT_MIN, frb_eq]⟩

/-- C6, witness: the candidate 1 with the reference 1/2. -/
theorem C6_nonneg_finite_witness :
    IsFloat (fin 1) ∧ (∃ u : ℚ, 0 ≤ u ∧ countULP (fin 1) (fin (1 / 2)) = fin u) ∧
      ∃ u : ℚ, 0 ≤ u ∧ countULP2 (fin 1) (fin (1 / 2)) = fin u := by
  have hq : IsFloat (fin 1) := by
    have := toFloat_intCast 1 (by norm_num)
    simpa [IsFloat] using this
  have h := C6_nonneg_finite (fin 1) (fin (1 / 2)) hq
  exact ⟨hq, h.1.1, h.2.1.1⟩

/-! ## Constants of the checks -/

theorem rangemax_eq : rangemax = fin 39000 := by
  have := toFloat_intCast 39000 (by norm_num)
  simpa [rangemax] using this

theorem dbl_three_half : dbl 3.5 = fin 3.5 := by
  show roundNearest 53 (-1074) 1024 (3.5 : ℚ) = fin 3.5
  refine roundNearest_eq_self 7 (-1) (by norm_num) (by norm_num) ?_ ?_
  · rw [abs_of_pos (by norm_num)]; norm_num
  · rw [abs_of_pos (by norm_num)]
    exact lt_of_lt_of_le (by norm_num : (3.5 : ℚ) < 2 ^ (2 : ℤ)) (two_zpow_le (by norm_num))

/-- Rounding keeps the sign. -/
theorem roundGrid_nonneg {p : ℕ} {emin : ℤ} {x : ℚ} (hx : 0 ≤ x) : 0 ≤ roundGrid p emin x := by
  unfold roundGrid roundAt
  apply mul_nonneg _ (two_zpow_pos _).le
  have h : ((0 : ℤ) : ℚ) ≤ x / 2 ^ (max (frexpExp x - p) emin) := by
    rw [Int.cast_zero]; exact div_nonneg hx (two_zpow_pos _).le
  exact_mod_cast le_roundHalfEven h

/-- A positive decimal between `2^a` and `2^b` in the range of `double` is a
constant between `2^a` and `2^b`. -/
theorem dbl_bounds {q : ℚ} {a b : ℤ} (ha : -1074 ≤ a) (hb : b < 1024)
    (h1 : (2 : ℚ) ^ a ≤ q) (h2 : q ≤ (2 : ℚ) ^ b) :
    ∃ r : ℚ, dbl q = fin r ∧ (2 : ℚ) ^ a ≤ r ∧ r ≤ (2 : ℚ) ^ b := by
  have hq : 0 ≤ q := (two_zpow_pos a).le.trans h1
  have hab : a ≤ b := by
    have := h1.trans h2
    rwa [zpow_le_zpow_iff_right₀ (by norm_num)] at this
  have hlo := @le_abs_roundGrid 53 (-1074) a q (by norm_num) ha (by rwa [abs_of_nonneg hq])
  have hhi := @abs_roundGrid_le 53 (-1074) b q (by norm_num) (by omega) (by rwa [abs_of_nonneg hq])
  have hnn : 0 ≤ roundGrid 53 (-1074) q := roundGrid_nonneg hq
  rw [abs_of_nonneg hnn] at hlo hhi
  refine ⟨roundGrid 53 (-1074) q, ?_, hlo, hhi⟩
  show roundNearest 53 (-1074) 1024 q = _
  apply roundNearest_of_lt
  rw [abs_of_nonneg hnn]
  exact lt_of_le_of_lt hhi (zpow_lt_zpow_right₀ (by norm_num) hb)

theorem toFloat_sentinel {u : FVal}
    (h : u = fin 10000 ∨ u = fin 10001 ∨ u = fin 10002) : toFloat u = u := by
  rcases h with rfl | rfl | rfl
  · simpa using toFloat_intCast 10000 (by norm_num)
  · simpa using toFloat_intCast 10001 (by norm_num)
  · simpa using toFloat_intCast 10002 (by norm_num)

theorem flt_nan_right (a : FVal) : flt a nan = false := by
  cases a <;> rfl

/-- A sentinel is different from zero and above every threshold not above 4. -/
theorem sentinel_facts {u : FVal} (h : u = fin 10000 ∨ u = fin 10001 ∨ u = fin 10002)
    {r : ℚ} (hr : r ≤ 4) :
    fne u (fin 0) = true ∧ fgt u (fin r) = true ∧ fle u (fin r) = false := by
  rcases h with rfl | rfl | rfl <;>
    refine ⟨by simp [fne, feq], ?_, ?_⟩ <;>
    simp only [fgt, fle, flt, feq, decide_eq_true_eq, Bool.or_eq_false_iff,
      decide_eq_false_iff_not, not_lt] <;>
    first
      | linarith
      | (constructor <;> linarith)

theorem dbl_half_bound : ∃ r : ℚ, dbl 0.5001 = fin r ∧ r ≤ 4 := by
  obtain ⟨r, h, -, h2⟩ := @dbl_bounds 0.5001 (-2) 0 (by norm_num) (by norm_num)
    (by norm_num) (by norm_num)
  exact ⟨r, h, h2.trans (by norm_num)⟩

/-- With a sentinel for the metric, the threshold checks `logf` and `logf_u1` count
a failure. -/
theorem logfFails_of_sentinel {t frx : FVal}
    (h : countULP t frx = fin 10000 ∨ countULP t frx = fin 10001 ∨
      countULP t frx = fin 10002) :
    logfFails t frx = true ∧ logf_u1Fails t frx = true := by
  obtain ⟨-, f1, -⟩ := sentinel_facts h (r := 3.5) (by norm_num)
  obtain ⟨-, g1, -⟩ := sentinel_facts h (r := 1) (by norm_num)
  refine ⟨?_, g1⟩
  unfold logfFails
  rw [dbl_three_half]; exact f1

/-- With a sentinel for the metric, the `sinf` check counts a failure exactly
inside its domain. -/
theorem sinfFails_of_sentinel (d : FVal) {t frx : FVal}
    (h : countULP t frx = fin 10000 ∨ countULP t frx = fin 10001 ∨
      countULP t frx = fin 10002) :
    sinfFails d t frx = true ↔
      (fle (fabs d) rangemax = true ∨ fgt (fabs t) (fin 1) = true ∨ isnumber t = false) := by
  obtain ⟨f0, f1, -⟩ := sentinel_facts h (r := 3.5) (by norm_num)
  unfold sinfFails
  simp only [toFloat_sentinel h, dbl_three_half, f0, f1, Bool.true_and, Bool.and_true,
    Bool.or_eq_true, Bool.not_eq_true', or_assoc]

/-- With a sentinel for the metric, the `frfrexpf` check counts a failure exactly
when the input is a finite number. -/
theorem frfrexpfFails_of_sentinel (d : FVal) {t frx : FVal}
    (h : countULP t frx = fin 10000 ∨ countULP t frx = fin 10001 ∨
      countULP t frx = fin 10002) :
    frfrexpfFails d t frx = true ↔ isnumber d = true := by
  obtain ⟨f0, -, -⟩ := sentinel_facts h (r := 1) (by norm_num)
  unfold frfrexpfFails
  simp only [f0, Bool.and_true]

/-- With a sentinel for the metric, the `fmaf` check counts a failure exactly when
the reference is inside `(-1e36, 1e36)` or the candidate is not an infinity. -/
theorem fmafFails_of_sentinel {t frx : FVal}
    (h : countULP2 t frx = fin 10000 ∨ countULP2 t frx = fin 10001 ∨
      countULP2 t frx = fin 10002) :
    fmafFails t frx = true ↔
      ((flt (fneg (dbl 1e36)) (mpfr_get_d frx) = true ∧
          flt (mpfr_get_d frx) (dbl 1e36) = true) ∨ isinf t = false) := by
  obtain ⟨r, hr, hr4⟩ := dbl_half_bound
  obtain ⟨-, f1, f2⟩ := sentinel_facts h hr4
  unfold fmafFails
  simp only [hr, f1, f2, Bool.and_true, Bool.false_or, Bool.or_eq_true, Bool.and_eq_true,
    Bool.not_eq_true']

/-- With a sentinel for the metric every bare threshold condition of `main` holds:
`u > T` and `u >= T` for a threshold `T` not above 4, and `u != 0`. -/
theorem threshold_of_sentinel {u : FVal}
    (h : u = fin 10000 ∨ u = fin 10001 ∨ u = fin 10002) :
    (∀ r : ℚ, r ≤ 4 → fgt u (fin r) = true ∧ fge u (fin r) = true) ∧
      fne u (fin 0) = true := by
  refine ⟨fun r hr => ?_, (sentinel_facts h (le_refl 4)).1⟩
  have hgt := (sentinel_facts h hr).2.1
  refine ⟨hgt, ?_⟩
  unfold fge fle
  unfold fgt at hgt
  rw [hgt]
  rfl

/-- C7 (amended): a sentinel (10000, 10001 or 10002) returned by the metric is a
failure in the checks whose condition is only a threshold on the metric (`u > T`
or `u >= T` with `T` not above 4, or `u != 0`), such as `logf` and `logf_u1`.  In
the checks with a domain carve-out it is a failure only inside the domain: the
`sinf` check records it exactly when `|d| <= rangemax` or `|t| > 1` or `t` is not
a finite number, the `frfrexpf` check exactly when the input `d` is a finite
number, and the `fmaf` check exactly when the reference as a `double` lies
strictly between `-1e36` and `1e36` or `t` is not an infinity. -/
theorem C7_sentinel_verdicts (d t frx : FVal) :
    ((countULP t frx = fin 10000 ∨ countULP t frx = fin 10001 ∨
        countULP t frx = fin 10002) →
      ((∀ r : ℚ, r ≤ 4 →
          fgt (countULP t frx) (fin r) = true ∧ fge (countULP t frx) (fin r) = true) ∧
        fne (countULP t frx) (fin 0) = true) ∧
        logfFails t frx = true ∧ logf_u1Fails t frx = true ∧
        (sinfFails d t frx = true ↔
          (fle (fabs d) rangemax = true ∨ fgt (fabs t) (fin 1) = true ∨
            isnumber t = false)) ∧
        (frfrexpfFails d t frx = true ↔ isnumber d = true)) ∧
      ((countULP2 t frx = fin 10000 ∨ countULP2 t frx = fin 10001 ∨
          countULP2 t frx = fin 10002) →
        ((∀ r : ℚ, r ≤ 4 →
            fgt (countULP2 t frx) (fin r) = true ∧ fge (countULP2 t frx) (fin r) = true) ∧
          fne (countULP2 t frx) (fin 0) = true) ∧
        (fmafFails t frx = true ↔
          ((flt (fneg (dbl 1e36)) (mpfr_get_d frx) = true ∧
              flt (mpfr_get_d frx) (dbl 1e36) = true) ∨ isinf t = false))) :=
  ⟨fun h => ⟨threshold_of_sentinel h, (logfFails_of_sentinel h).1, (logfFails_of_sentinel h).2,
      sinfFails_of_sentinel d h, frfrexpfFails_of_sentinel d h⟩,
    fun h => ⟨threshold_of_sentinel h, fmafFails_of_sentinel h⟩⟩

/-- C7, witness: the candidate 1 against a NaN reference gives the sentinel 10001. -/
theorem C7_sentinel_verdicts_witness :
    countULP (fin 1) nan = fin 10001 ∧ logfFails (fin 1) nan = true ∧
      logf_u1Fails (fin 1) nan = true ∧ frfrexpfFails (fin 0) (fin 1) nan = true := by
  have h : countULP (fin 1) nan = fin 10001 := countULP_one_nan (by decide) (by decide)
  have hi : isnumber (fin 0) = true := rfl
  have := (C7_sentinel_verdicts (fin 0) (fin 1) nan).1 (Or.inr (Or.inl h))
  exact ⟨h, this.2.1, this.2.2.1, this.2.2.2.2.mpr hi⟩

/-- C7 as stated fails in the checks with a domain carve-out.  `sinf`: for the
input `+inf` the oracle value is a NaN, the candidate 1/2 gives the sentinel 10001
and no failure is counted.  `frfrexpf`: for the input `+inf` the reference is
`+inf`, the candidate 1/2 gives 10002 and no failure is counted.  `fmaf`: a NaN
reference with the candidate `+inf` gives 10001 and no failure is counted. -/
theorem C7_counterexample :
    (countULP (fin (1 / 2)) nan = fin 10001 ∧
        sinfFails (inf false) (fin (1 / 2)) nan = false) ∧
      (countULP (fin (1 / 2)) (inf false) = fin 10002 ∧
        frfrexpfFails (inf false) (fin (1 / 2)) (inf false) = false) ∧
      (countULP2 (inf false) nan = fin 10001 ∧ fmafFails (inf false) nan = false) := by
  have h1 : countULP (fin (1 / 2)) nan = fin 10001 := countULP_one_nan (by decide) (by decide)
  have h3 : countULP2 (inf false) nan = fin 10001 := countULP2_one_nan (by decide) (by decide)
  have h2 : countULP (fin (1 / 2)) (inf false) = fin 10002 := by
    unfold countULP
    simp [mpfr_get_d, toDouble, toFloat, feq, fne, isnan, isnumber, isinf, POSITIVE_INFINITYf,
      NEGATIVE_INFINITYf]
  refine ⟨⟨h1, ?_⟩, ⟨h2, ?_⟩, ⟨h3, ?_⟩⟩
  · have hiff := sinfFails_of_sentinel (inf false) (Or.inr (Or.inl h1))
    have habs : |(1 / 2 : ℚ)| = 1 / 2 := abs_of_pos (by norm_num)
    rw [← Bool.not_eq_true, hiff, rangemax_eq]
    simp only [fle, fabs, flt, feq, fgt, isnumber, isinf, isnan, habs]
    norm_num
  · rfl
  · unfold fmafFails
    simp [mpfr_get_d, toDouble, flt_nan_right, isinf]

/-- The metric against the reference `-inf`. -/
theorem countULP_neg_inf (t : FVal) :
    countULP t (inf true) =
      if t = inf true then fin 0 else if t = nan then fin 10001 else fin 10002 := by
  unfold countULP
  cases t with
  | nan =>
    simp [mpfr_get_d, toDouble, toFloat, feq, fne, isnan, isnumber, isinf, POSITIVE_INFINITYf,
      NEGATIVE_INFINITYf]
  | inf b =>
    cases b <;>
      simp [mpfr_get_d, toDouble, toFloat, feq, fne, isnan, isnumber, isinf, POSITIVE_INFINITYf,
        NEGATIVE_INFINITYf]
  | fin q =>
    simp [mpfr_get_d, toDouble, toFloat, feq, fne, isnan, isnumber, isinf, POSITIVE_INFINITYf,
      NEGATIVE_INFINITYf]

/-- C9: against the reference `-inf` (the oracle's logarithm of 0.0) `countULP`
returns 0 exactly when the candidate is `-inf`, 10001 for a NaN candidate and
10002 for every other candidate; the `logf` check (threshold 3.5) and the
`logf_u1` check (threshold 1) count a failure exactly when the candidate is not
`-inf`. -/
theorem C9_log_of_zero (t : FVal) :
    (countULP t (inf true) = fin 0 ↔ t = inf true) ∧
      (t = nan → countULP t (inf true) = fin 10001) ∧
      (t ≠ inf true → t ≠ nan → countULP t (inf true) = fin 10002) ∧
      (logfFails t (inf true) = true ↔ t ≠ inf true) ∧
      (logf_u1Fails t (inf true) = true ↔ t ≠ inf true) := by
  have h := countULP_neg_inf t
  by_cases h1 : t = inf true
  · rw [if_pos h1] at h
    refine ⟨⟨fun _ => h1, fun _ => h⟩, fun hn => ?_, fun hn => absurd h1 hn, ?_, ?_⟩
    · rw [hn] at h1; exact absurd h1 (by simp)
    · unfold logfFails
      rw [h, dbl_three_half]
      simp only [fgt, flt, decide_eq_true_eq]
      norm_num
      exact h1
    · unfold logf_u1Fails
      rw [h]
      simp [fgt, flt, h1]
  · rw [if_neg h1] at h
    have hs : countULP t (inf true) = fin 10000 ∨ countULP t (inf true) = fin 10001 ∨
        countULP t (inf true) = fin 10002 := by
      by_cases h2 : t = nan
      · rw [if_pos h2] at h; exact Or.inr (Or.inl h)
      · rw [if_neg h2] at h; exact Or.inr (Or.inr h)
    have hne : countULP t (inf true) ≠ fin 0 := by
      rcases hs with e | e | e <;> rw [e] <;> simp
    obtain ⟨l1, l2⟩ := logfFails_of_sentinel hs
    refine ⟨⟨fun e => absurd e hne, fun e => absurd e h1⟩, fun hn => ?_, fun _ hn => ?_, ?_, ?_⟩
    · rw [if_pos hn] at h; exact h
    · rw [if_neg hn] at h; exact h
    · exact ⟨fun _ => h1, fun _ => l1⟩
    · exact ⟨fun _ => h1, fun _ => l2⟩

/-! ## The loop -/

theorem foldl_record_bounds (vs : List Bool) (e : ℕ) :
    e ≤ vs.foldl (fun e b => record b e) e ∧
      vs.foldl (fun e b => record b e) e ≤ e + vs.length := by
  induction vs generalizing e with
  | nil => simp
  | cons b vs ih =>
    have h := ih (record b e)
    simp only [List.foldl_cons, List.length_cons]
    cases b
    · simp only [record, Bool.false_eq_true, if_false] at h ⊢
      omega
    · simp only [record, if_true] at h ⊢
      omega

theorem loopBody_ecnt_bounds (vs : List Bool) (s : LoopState) :
    s.ecnt ≤ (loopBody vs s).ecnt ∧ (loopBody vs s).ecnt ≤ s.ecnt + vs.length :=
  foldl_record_bounds vs s.ecnt

theorem runLoop_continue (verdicts : ℕ → List Bool) (fuel : ℕ) (s : LoopState)
    (h : s.ecnt < 1000) :
    runLoop verdicts (fuel + 1) s = runLoop verdicts fuel (loopBody (verdicts s.cnt) s) := by
  rw [runLoop, if_pos h]

theorem runLoop_exit (verdicts : ℕ → List Bool) (fuel : ℕ) (s : LoopState)
    (h : ¬ s.ecnt < 1000) : runLoop verdicts fuel s = some s := by
  cases fuel <;> rw [runLoop, if_neg h]

theorem runLoop_some (verdicts : ℕ → List Bool) (fuel : ℕ) (s s' : LoopState)
    (h : runLoop verdicts fuel s = some s') : 1000 ≤ s'.ecnt ∧ s.ecnt ≤ s'.ecnt := by
  induction fuel generalizing s with
  | zero =>
    by_cases hc : s.ecnt < 1000
    · rw [runLoop, if_pos hc] at h; exact absurd h (by simp)
    · rw [runLoop, if_neg hc] at h
      obtain rfl : s = s' := by simpa using h
      exact ⟨not_lt.mp hc, le_refl _⟩
  | succ n ih =>
    by_cases hc : s.ecnt < 1000
    · rw [runLoop_continue verdicts n s hc] at h
      obtain ⟨a, b⟩ := ih _ h
      exact ⟨a, (loopBody_ecnt_bounds (verdicts s.cnt) s).1.trans b⟩
    · rw [runLoop_exit verdicts _ s hc] at h
      obtain rfl : s = s' := by simpa using h
      exact ⟨not_lt.mp hc, le_refl _⟩

theorem runLoop_terminates (verdicts : ℕ → List Bool) (n : ℕ) (s : LoopState)
    (h : 1000 ≤ (iterate verdicts n s).ecnt) : ∃ s', runLoop verdicts n s = some s' := by
  induction n generalizing s with
  | zero => exact ⟨s, runLoop_exit verdicts 0 s (not_lt.mpr h)⟩
  | succ n ih =>
    by_cases hc : s.ecnt < 1000
    · rw [runLoop_continue verdicts n s hc]
      exact ih _ h
    · exact ⟨s, runLoop_exit verdicts _ s hc⟩

/-- C10: the loop runs the body exactly when fewer than 1000 failures are counted
(with 1000 or more it exits at once, in the same state); an iteration never
lowers the counter and raises it by at most the number of checks; when the loop
has exited the counter is at least 1000 and not below its starting value; and
the loop does exit within `n` iterations as soon as `n` iterations bring the
counter to 1000. -/
theorem C10_loop_quota (verdicts : ℕ → List Bool) :
    (∀ fuel s, s.ecnt < 1000 →
        runLoop verdicts (fuel + 1) s =
          runLoop verdicts fuel (loopBody (verdicts s.cnt) s)) ∧
      (∀ fuel s, ¬ s.ecnt < 1000 → runLoop verdicts fuel s = some s) ∧
      (∀ vs s, s.ecnt ≤ (loopBody vs s).ecnt ∧ (loopBody vs s).ecnt ≤ s.ecnt + vs.length) ∧
      (∀ fuel s s', runLoop verdicts fuel s = some s' → 1000 ≤ s'.ecnt ∧ s.ecnt ≤ s'.ecnt) ∧
      (∀ n s, 1000 ≤ (iterate verdicts n s).ecnt → ∃ s', runLoop verdicts n s = some s') :=
  ⟨runLoop_continue verdicts, runLoop_exit verdicts, loopBody_ecnt_bounds,
    runLoop_some verdicts, runLoop_terminates verdicts⟩

/-- C10, witness: with 999 failures counted, an iteration whose first and third
checks fail ends the loop with the counter at 1001. -/
theorem C10_loop_quota_witness :
    runLoop (fun _ => [true, false, true]) 1 ⟨5, 999⟩ = some ⟨6, 1001⟩ ∧
      1000 ≤ (1001 : ℕ) ∧ (999 : ℕ) ≤ 1001 :=
  ⟨rfl, (C10_loop_quota (fun _ => [true, false, true])).2.2.2.1 1 ⟨5, 999⟩ ⟨6, 1001⟩ rfl⟩

/-! ## The random bit patterns -/

theorem u32_of_lt {x : ℕ} (h : x < 2 ^ 32) : u32 x = x := Nat.mod_eq_of_lt h

/-- For a first operand below `2^31` the pattern is that operand with the lowest
bit of the second operand on top, as bit 31. -/
theorem randomBits_eq {r1 : ℕ} (r2 : ℕ) (h1 : r1 < 2 ^ 31) :
    randomBits r1 r2 = r1 + r2 % 2 * 2 ^ 31 := by
  unfold randomBits
  rw [u32_of_lt (by omega)]
  have h2 : u32 (u32 r2 <<< 31) = 2 ^ 31 * (r2 % 2) := by
    unfold u32
    rw [Nat.shiftLeft_eq]
    omega
  rw [h2, Nat.lor_comm, ← Nat.mul_add_lt_is_or h1]
  omega

/-- The expression of the source on mathematical integers, reduced modulo `2^32`. -/
theorem lor_shift_mod {r1 : ℕ} (r2 : ℕ) (h1 : r1 < 2 ^ 31) :
    (r1 ||| (r2 <<< 31)) % 2 ^ 32 = r1 + r2 % 2 * 2 ^ 31 := by
  rw [Nat.shiftLeft_eq, Nat.mul_comm r2, Nat.lor_comm, ← Nat.mul_add_lt_is_or h1]
  omega

/-- The pairs of random numbers that give the pattern `u`. -/
theorem pattern_pairs_eq {u : ℕ} (hu : u < 2 ^ 32) :
    (Finset.range (2 ^ 31) ×ˢ Finset.range (2 ^ 31)).filter
        (fun p : ℕ × ℕ => (p.1 ||| (p.2 <<< 31)) % 2 ^ 32 = u) =
      (Finset.range (2 ^ 30)).image (fun k => (u % 2 ^ 31, 2 * k + u / 2 ^ 31)) := by
  ext ⟨r1, r2⟩
  simp only [Finset.mem_filter, Finset.mem_product, Finset.mem_range, Finset.mem_image,
    Prod.mk.injEq]
  constructor
  · rintro ⟨⟨h1, h2⟩, h⟩
    rw [lor_shift_mod r2 h1] at h
    exact ⟨r2 / 2, by omega, by omega, by omega⟩
  · rintro ⟨k, hk, e1, e2⟩
    have h1 : r1 < 2 ^ 31 := by omega
    refine ⟨⟨h1, by omega⟩, ?_⟩
    rw [lor_shift_mod r2 h1]
    omega

theorem pattern_pairs_card {u : ℕ} (hu : u < 2 ^ 32) :
    ((Finset.range (2 ^ 31) ×ˢ Finset.range (2 ^ 31)).filter
        (fun p : ℕ × ℕ => (p.1 ||| (p.2 <<< 31)) % 2 ^ 32 = u)).card = 2 ^ 30 := by
  rw [pattern_pairs_eq hu, Finset.card_image_of_injective, Finset.card_range]
  intro a b h
  simp only [Prod.mk.injEq] at h
  omega

/-! ## Patterns and values -/

theorem float_of_bits_nan : float_of_bits 0x7fc00000 = nan := by
  simp [float_of_bits]

theorem float_of_bits_pinf : float_of_bits 0x7f800000 = inf false := by
  simp [float_of_bits]

theorem float_of_bits_ninf : float_of_bits 0xff800000 = inf true := by
  simp [float_of_bits]

theorem float_of_bits_one : float_of_bits 1 = fin ((2 : ℚ) ^ (-149 : ℤ)) := by
  simp [float_of_bits]

/-- The value of a pattern with exponent field 0 (zero and the subnormal numbers). -/
theorem float_of_bits_subnormal {s M : ℕ} (hs : s = 0 ∨ s = 2 ^ 31) (hM : M < 2 ^ 23) :
    float_of_bits (s + M) =
      fin ((if s = 0 then 1 else -1) * (M : ℚ) * 2 ^ (-149 : ℤ)) := by
  have e0 : ¬ (0 : ℕ) = 255 := by decide
  have e1 : ¬ (2 ^ 31 : ℕ) = 0 := by decide
  rcases hs with rfl | rfl
  · have h1 : (0 + M) / 2 ^ 23 % 256 = 0 := by omega
    have h2 : (0 + M) % 2 ^ 23 = M := by omega
    have h3 : ¬ ((0 + M) / 2 ^ 31 % 2 = 1) := by omega
    unfold float_of_bits
    simp only [h1, h2, h3, e0, if_false, if_true]
  · have h1 : (2 ^ 31 + M) / 2 ^ 23 % 256 = 0 := by omega
    have h2 : (2 ^ 31 + M) % 2 ^ 23 = M := by omega
    have h3 : (2 ^ 31 + M) / 2 ^ 31 % 2 = 1 := by omega
    unfold float_of_bits
    simp only [h1, h2, h3, e0, e1, if_false, if_true]

/-- The value of a pattern with exponent field `E` from 1 to 254 (the normal
numbers); `M` is the 24-bit significand with its leading bit. -/
theorem float_of_bits_normal {s E M : ℕ} (hs : s = 0 ∨ s = 2 ^ 31) (hE1 : 1 ≤ E)
    (hE2 : E ≤ 254) (hM1 : 2 ^ 23 ≤ M) (hM2 : M < 2 ^ 24) :
    float_of_bits (s + E * 2 ^ 23 + (M - 2 ^ 23)) =
      fin ((if s = 0 then 1 else -1) * (M : ℚ) * 2 ^ ((E : ℤ) - 150)) := by
  have e1 : ¬ (2 ^ 31 : ℕ) = 0 := by decide
  have h4 : 2 ^ 23 + (M - 2 ^ 23) = M := by omega
  have hE : ¬ E = 255 := by omega
  have hE0 : ¬ E = 0 := by omega
  rcases hs with rfl | rfl
  · have h1 : (0 + E * 2 ^ 23 + (M - 2 ^ 23)) / 2 ^ 23 % 256 = E := by omega
    have h2 : (0 + E * 2 ^ 23 + (M - 2 ^ 23)) % 2 ^ 23 = M - 2 ^ 23 := by omega
    have h3 : ¬ ((0 + E * 2 ^ 23 + (M - 2 ^ 23)) / 2 ^ 31 % 2 = 1) := by omega
    unfold float_of_bits
    simp only [h1, h2, h3, h4, hE, hE0, if_false, if_true]
  · have h1 : (2 ^ 31 + E * 2 ^ 23 + (M - 2 ^ 23)) / 2 ^ 23 % 256 = E := by omega
    have h2 : (2 ^ 31 + E * 2 ^ 23 + (M - 2 ^ 23)) % 2 ^ 23 = M - 2 ^ 23 := by omega
    have h3 : (2 ^ 31 + E * 2 ^ 23 + (M - 2 ^ 23)) / 2 ^ 31 % 2 = 1 := by omega
    unfold float_of_bits
    simp only [h1, h2, h3, h4, hE, hE0, e1, if_false, if_true]

/-- The magnitude of a nonzero finite `float` is a natural number of units in the
last place: `|q| = N * 2^K` with `K = max (e - 24) (-149)`, `e` the `frexp`
exponent. -/
theorem IsFloat.exists_nat {q : ℚ} (h : IsFloat (fin q)) :
    ∃ N : ℕ, |q| = (N : ℚ) * 2 ^ (max (frexpExp q - 24) (-149)) := by
  have hg := h.roundGrid_eq
  have hform : q = (roundHalfEven (q / 2 ^ (max (frexpExp q - (24 : ℕ)) (-149))) : ℚ) *
      2 ^ (max (frexpExp q - ((24 : ℕ) : ℤ)) (-149)) := hg.symm
  refine ⟨(roundHalfEven (q / 2 ^ (max (frexpExp q - (24 : ℕ)) (-149)))).natAbs, ?_⟩
  rw [Nat.cast_natAbs, Int.cast_abs]
  conv_lhs => rw [hform]
  rw [abs_mul, abs_of_pos (two_zpow_pos _)]
  rfl

/-- Writing a `float` to the union and reading it back gives the same value, and
the pattern has 32 bits: every `float` value is the value of a 32-bit pattern. -/
theorem float_of_bits_bits_of_float {d : FVal} (h : IsFloat d) :
    float_of_bits (bits_of_float d) = d ∧ bits_of_float d < 2 ^ 32 := by
  cases d with
  | nan => exact ⟨float_of_bits_nan, by decide⟩
  | inf s =>
    cases s
    · exact ⟨float_of_bits_pinf, by decide⟩
    · exact ⟨float_of_bits_ninf, by decide⟩
  | fin q =>
    by_cases hq0 : q = 0
    · subst hq0
      constructor
      · simp [bits_of_float, float_of_bits]
      · simp [bits_of_float]
    · obtain ⟨N, hN⟩ := h.exists_nat
      obtain ⟨s1, s2⟩ := frexpExp_spec hq0
      have hlt := h.abs_lt
      have he128 : frexpExp q ≤ 128 := by
        have := lt_of_le_of_lt s1 hlt
        rw [zpow_lt_zpow_iff_right₀ (by norm_num)] at this
        omega
      have hs : (if q < 0 then 2 ^ 31 else 0 : ℕ) = 0 ∨ (if q < 0 then 2 ^ 31 else 0 : ℕ) = 2 ^ 31 := by
        by_cases hneg : q < 0
        · right; rw [if_pos hneg]
        · left; rw [if_neg hneg]
      have hsign : ((if (if q < 0 then 2 ^ 31 else 0 : ℕ) = 0 then 1 else -1 : ℚ)) * |q| = q := by
        by_cases hneg : q < 0
        · rw [if_pos hneg, if_neg (by decide), abs_of_neg hneg]; ring
        · rw [if_neg hneg, if_pos rfl, abs_of_nonneg (not_lt.mp hneg)]; ring
      by_cases he : frexpExp q ≤ -126
      · have hK : max (frexpExp q - 24) (-149) = -149 := max_eq_right (by omega)
        rw [hK] at hN
        have hfl : |q| * 2 ^ (149 : ℤ) = (N : ℚ) := by
          rw [hN, mul_assoc, ← zpow_add₀ (by norm_num : (2 : ℚ) ≠ 0)]; simp
        have hNlt : N < 2 ^ 23 := by
          have h1 : (N : ℚ) < 2 ^ (23 : ℤ) := by
            rw [← hfl]
            have h2 : |q| * 2 ^ (149 : ℤ) < 2 ^ (frexpExp q) * 2 ^ (149 : ℤ) :=
              mul_lt_mul_of_pos_right s2 (two_zpow_pos _)
            rw [← zpow_add₀ (by norm_num : (2 : ℚ) ≠ 0)] at h2
            exact lt_of_lt_of_le h2 (two_zpow_le (by omega))
          have h3 : (N : ℚ) < ((2 ^ 23 : ℕ) : ℚ) := by
            rw [Nat.cast_pow]; exact_mod_cast h1
          exact_mod_cast h3
        have hb : bits_of_float (fin q) = (if q < 0 then 2 ^ 31 else 0 : ℕ) + N := by
          simp only [bits_of_float, hq0, if_false, he, if_true, hfl, Nat.floor_natCast]
        rw [hb, float_of_bits_subnormal hs hNlt]
        refine ⟨?_, by rcases hs with e | e <;> omega⟩
        congr 1
        rw [mul_assoc, ← hN, hsign]
      · have hK : max (frexpExp q - 24) (-149) = frexpExp q - 24 := max_eq_left (by omega)
        rw [hK] at hN
        have hfl : |q| * 2 ^ (24 - frexpExp q) = (N : ℚ) := by
          rw [hN, mul_assoc, ← zpow_add₀ (by norm_num : (2 : ℚ) ≠ 0)]; simp
        have hNlt : N < 2 ^ 24 := by
          have h1 : (N : ℚ) < 2 ^ (24 : ℤ) := by
            rw [← hfl]
            have h2 : |q| * 2 ^ (24 - frexpExp q) < 2 ^ (frexpExp q) * 2 ^ (24 - frexpExp q) :=
              mul_lt_mul_of_pos_right s2 (two_zpow_pos _)
            rw [← zpow_add₀ (by norm_num : (2 : ℚ) ≠ 0)] at h2
            exact lt_of_lt_of_le h2 (two_zpow_le (by omega))
          have h3 : (N : ℚ) < ((2 ^ 24 : ℕ) : ℚ) := by
            rw [Nat.cast_pow]; exact_mod_cast h1
          exact_mod_cast h3
        have hNge : 2 ^ 23 ≤ N := by
          have h1 : (2 : ℚ) ^ (23 : ℤ) ≤ (N : ℚ) := by
            rw [← hfl]
            have h2 : (2 : ℚ) ^ (frexpExp q - 1) * 2 ^ (24 - frexpExp q) ≤
                |q| * 2 ^ (24 - frexpExp q) :=
              mul_le_mul_of_nonneg_right s1 (two_zpow_pos _).le
            rw [← zpow_add₀ (by norm_num : (2 : ℚ) ≠ 0)] at h2
            exact le_trans (two_zpow_le (by omega)) h2
          have h3 : ((2 ^ 23 : ℕ) : ℚ) ≤ (N : ℚ) := by
            rw [Nat.cast_pow]; exact_mod_cast h1
          exact_mod_cast h3
        have hE1 : 1 ≤ (frexpExp q + 126).toNat := by omega
        have hE2 : (frexpExp q + 126).toNat ≤ 254 := by omega
        have hEc : (((frexpExp q + 126).toNat : ℕ) : ℤ) - 150 = frexpExp q - 24 := by omega
        have hb : bits_of_float (fin q) = (if q < 0 then 2 ^ 31 else 0 : ℕ) +
            (frexpExp q + 126).toNat * 2 ^ 23 + (N - 2 ^ 23) := by
          simp only [bits_of_float, hq0, if_false, he, hfl, Nat.floor_natCast]
        rw [hb, float_of_bits_normal hs hE1 hE2 hNge hNlt]
        refine ⟨?_, by rcases hs with e | e <;> omega⟩
        congr 1
        rw [hEc, mul_assoc, ← hN, hsign]

/-! ## Rounding is monotone against a number of the grid -/

theorem intCast_mul_zpow_div {k j : ℤ} (n : ℤ) (h : k ≤ j) :
    (n : ℚ) * 2 ^ j / 2 ^ k = ((n * (2 : ℤ) ^ (j - k).toNat : ℤ) : ℚ) := by
  rw [mul_div_assoc, ← zpow_sub₀ (by norm_num : (2 : ℚ) ≠ 0),
    two_zpow_eq_intCast (by omega : 0 ≤ j - k)]
  push_cast
  rfl

theorem le_roundAt {k j : ℤ} {x : ℚ} (n : ℤ) (hk : k ≤ j) (h : (n : ℚ) * 2 ^ j ≤ x) :
    (n : ℚ) * 2 ^ j ≤ roundAt k x := by
  have hkpos := two_zpow_pos k
  have h1 : ((n * (2 : ℤ) ^ (j - k).toNat : ℤ) : ℚ) ≤ x / 2 ^ k := by
    rw [← intCast_mul_zpow_div n hk]; exact div_le_div_of_nonneg_right h hkpos.le
  have r := le_roundHalfEven h1
  have rq : (n : ℚ) * 2 ^ j / 2 ^ k ≤ (roundHalfEven (x / 2 ^ k) : ℚ) := by
    rw [intCast_mul_zpow_div n hk]; exact_mod_cast r
  have := mul_le_mul_of_nonneg_right rq hkpos.le
  rwa [div_mul_cancel₀ _ hkpos.ne'] at this

theorem roundAt_le {k j : ℤ} {x : ℚ} (n : ℤ) (hk : k ≤ j) (h : x ≤ (n : ℚ) * 2 ^ j) :
    roundAt k x ≤ (n : ℚ) * 2 ^ j := by
  have hkpos := two_zpow_pos k
  have h1 : x / 2 ^ k ≤ ((n * (2 : ℤ) ^ (j - k).toNat : ℤ) : ℚ) := by
    rw [← intCast_mul_zpow_div n hk]; exact div_le_div_of_nonneg_right h hkpos.le
  have r := roundHalfEven_le h1
  have rq : (roundHalfEven (x / 2 ^ k) : ℚ) ≤ (n : ℚ) * 2 ^ j / 2 ^ k := by
    rw [intCast_mul_zpow_div n hk]; exact_mod_cast r
  have := mul_le_mul_of_nonneg_right rq hkpos.le
  rwa [div_mul_cancel₀ _ hkpos.ne'] at this

theorem roundGrid_nonpos {p : ℕ} {emin : ℤ} {x : ℚ} (hx : x ≤ 0) : roundGrid p emin x ≤ 0 := by
  have := @roundAt_le (max (frexpExp x - p) emin) (max (frexpExp x - p) emin) x 0 (le_refl _)
    (by simpa using hx)
  simpa [roundGrid] using this

/-- The grid of `double` for a number of magnitude at most 2 is at least as fine as
`2^-51`. -/
theorem grid_le_of_abs_le_two {x : ℚ} (hx : |x| ≤ 2) :
    max (frexpExp x - ((53 : ℕ) : ℤ)) (-1074) ≤ -51 := by
  apply max_le _ (by norm_num)
  by_cases h0 : x = 0
  · rw [h0, frexpExp_zero]; norm_num
  · have := @frexpExp_le_of_abs_le x 1 h0 (by simpa using hx)
    push_cast
    omega

/-- A number of magnitude at most `2^m` in the range of `double` converts without
overflow. -/
theorem toDouble_fin {x : ℚ} {m : ℤ} (h : |x| ≤ (2 : ℚ) ^ m) (h1 : -1074 ≤ m)
    (h2 : m < 1024) : toDouble (fin x) = fin (roundGrid 53 (-1074) x) := by
  show roundNearest 53 (-1074) 1024 x = _
  apply roundNearest_of_lt
  exact lt_of_le_of_lt (@abs_roundGrid_le 53 (-1074) m x (by norm_num) h1 h)
    (zpow_lt_zpow_right₀ (by norm_num) h2)

/-! ## The first operand of stratum 1 -/

theorem dbl_1e10 : dbl 1e10 = fin 10000000000 := by
  have := toDouble_intCast 10000000000 (by norm_num)
  have e : (1e10 : ℚ) = ((10000000000 : ℤ) : ℚ) := by norm_num
  unfold dbl
  rw [e, this]
  norm_num

theorem dmul_fin (x y : ℚ) : dmul (fin x) (fin y) = toDouble (fin (x * y)) := rfl

theorem dsub_fin (x y : ℚ) : dsub (fin x) (fin y) = toDouble (fin (x - y)) := rfl

theorem ddiv_fin (x : ℚ) {y : ℚ} (hy : y ≠ 0) :
    ddiv (fin x) (fin y) = toDouble (fin (x / y)) := by
  unfold ddiv
  simp only [hy, if_false]

theorem le_roundGrid_zpow {p : ℕ} {emin m : ℤ} {x : ℚ} (hp : 1 ≤ p) (hm : emin ≤ m)
    (h : (2 : ℚ) ^ m ≤ x) : (2 : ℚ) ^ m ≤ roundGrid p emin x := by
  have h0 : 0 ≤ x := (two_zpow_pos m).le.trans h
  have := le_abs_roundGrid hp hm (h.trans (le_abs_self x))
  rwa [abs_of_nonneg (roundGrid_nonneg h0)] at this

theorem roundGrid_le_neg_zpow {p : ℕ} {emin m : ℤ} {x : ℚ} (hp : 1 ≤ p) (hm : emin ≤ m)
    (h : x ≤ -(2 : ℚ) ^ m) : roundGrid p emin x ≤ -(2 : ℚ) ^ m := by
  have h0 : x ≤ 0 := h.trans (by linarith [two_zpow_pos m])
  have := le_abs_roundGrid hp hm (by rw [abs_of_nonpos h0]; linarith : (2 : ℚ) ^ m ≤ |x|)
  rw [abs_of_nonpos (roundGrid_nonpos h0)] at this
  linarith

/-- Rounding to `double` does not cross an integer below `2^52`. -/
theorem abs_roundGrid_le_natCast {x : ℚ} {N : ℕ} (hx : |x| ≤ (N : ℚ))
    (hN : (N : ℚ) ≤ (2 : ℚ) ^ (52 : ℤ)) : |roundGrid 53 (-1074) x| ≤ (N : ℚ) := by
  have hK : max (frexpExp x - ((53 : ℕ) : ℤ)) (-1074) ≤ 0 := by
    apply max_le _ (by norm_num)
    by_cases h0 : x = 0
    · rw [h0, frexpExp_zero]; norm_num
    · have := frexpExp_le_of_abs_le h0 (hx.trans hN)
      push_cast
      omega
  obtain ⟨h1, h2⟩ := abs_le.mp hx
  rw [abs_le]
  constructor
  · have := @le_roundAt _ 0 x (-(N : ℤ)) hK (by push_cast; simpa using h1)
    have e : (((-(N : ℤ) : ℤ)) : ℚ) * 2 ^ (0 : ℤ) = -(N : ℚ) := by push_cast; simp
    rw [e] at this
    exact this
  · have := @roundAt_le _ 0 x (N : ℤ) hK (by push_cast; simpa using h2)
    have e : (((N : ℤ)) : ℚ) * 2 ^ (0 : ℤ) = (N : ℚ) := by push_cast; simp
    rw [e] at this
    exact this

/-- The quotient `2 * (double)random() / RAND_MAX` for a result `r` of `random()`:
a `double` in `[0, 2]` that is at most `1 - 2^-31` for `r < 2^30` and at least
`1 + 2^-31` for `r >= 2^30`. -/
theorem scaled_eq {r : ℕ} (hr : r ≤ RAND_MAX) :
    ∃ x2 : ℚ, ddiv (dmul (fin 2) (toDouble (fin r))) (fin RAND_MAX) = fin x2 ∧
      0 ≤ x2 ∧ x2 ≤ 2 ∧ (2 ^ 30 ≤ r → 1 + (2 : ℚ) ^ (-31 : ℤ) ≤ x2) ∧
      (r < 2 ^ 30 → x2 ≤ 1 - (2 : ℚ) ^ (-31 : ℤ)) := by
  have hr' : r ≤ 2147483647 := hr
  have hrq : (r : ℚ) ≤ 2147483647 := by exact_mod_cast hr'
  have h1 : toDouble (fin (r : ℚ)) = fin (r : ℚ) := by
    have := toDouble_intCast (r : ℤ) (by
      rw [Int.cast_natCast, abs_of_nonneg (by positivity)]
      exact lt_of_le_of_lt hrq (by norm_num))
    simpa using this
  have h2 : dmul (fin 2) (fin (r : ℚ)) = fin (2 * (r : ℚ)) := by
    rw [dmul_fin]
    have := toDouble_intCast (2 * (r : ℤ)) (by
      push_cast
      rw [abs_of_nonneg (by positivity)]
      exact lt_of_le_of_lt (by linarith : 2 * (r : ℚ) ≤ 2 * 2147483647) (by norm_num))
    simpa using this
  have hRM : ((RAND_MAX : ℕ) : ℚ) = 2147483647 := by norm_num [RAND_MAX]
  have hy0 : 0 ≤ 2 * (r : ℚ) / 2147483647 := by positivity
  have hy2 : 2 * (r : ℚ) / 2147483647 ≤ 2 := by
    rw [div_le_iff₀ (by norm_num)]; linarith
  have hyabs : |2 * (r : ℚ) / 2147483647| ≤ 2 := by rwa [abs_of_nonneg hy0]
  have hK := grid_le_of_abs_le_two hyabs
  have hx0 : 0 ≤ roundGrid 53 (-1074) (2 * (r : ℚ) / 2147483647) := roundGrid_nonneg hy0
  refine ⟨roundGrid 53 (-1074) (2 * (r : ℚ) / 2147483647), ?_, hx0, ?_, ?_, ?_⟩
  · rw [h1, h2, hRM, ddiv_fin _ (by norm_num)]
    exact @toDouble_fin _ 1 (by simpa using hyabs) (by norm_num) (by norm_num)
  · have := @abs_roundGrid_le 53 (-1074) 1 _ (by norm_num) (by norm_num)
      (by simpa using hyabs)
    rw [abs_of_nonneg hx0] at this
    simpa using this
  · intro hhalf
    have hrq2 : (1073741824 : ℚ) ≤ r := by exact_mod_cast hhalf
    have hy : ((2147483649 : ℤ) : ℚ) * 2 ^ (-31 : ℤ) ≤ 2 * (r : ℚ) / 2147483647 := by
      rw [le_div_iff₀ (by norm_num)]
      norm_num
      linarith
    have := @le_roundAt _ (-31) _ 2147483649 (hK.trans (by norm_num)) hy
    have e : ((2147483649 : ℤ) : ℚ) * 2 ^ (-31 : ℤ) = 1 + (2 : ℚ) ^ (-31 : ℤ) := by norm_num
    rw [e] at this
    exact this
  · intro hlt
    have hlt' : r ≤ 1073741823 := by omega
    have hrq2 : (r : ℚ) ≤ 1073741823 := by exact_mod_cast hlt'
    have hy : 2 * (r : ℚ) / 2147483647 ≤ ((2147483647 : ℤ) : ℚ) * 2 ^ (-31 : ℤ) := by
      rw [div_le_iff₀ (by norm_num)]
      norm_num
      linarith
    have := @roundAt_le _ (-31) _ 2147483647 (hK.trans (by norm_num)) hy
    have e : ((2147483647 : ℤ) : ℚ) * 2 ^ (-31 : ℤ) = 1 - (2 : ℚ) ^ (-31 : ℤ) := by norm_num
    rw [e] at this
    exact this

/-- Subtracting 1 from a `double` in `[0, 2]`. -/
theorem dsub_one {x2 : ℚ} (h0 : 0 ≤ x2) (h2 : x2 ≤ 2) :
    ∃ x3 : ℚ, dsub (fin x2) (fin 1) = fin x3 ∧ |x3| ≤ 1 ∧
      (1 + (2 : ℚ) ^ (-31 : ℤ) ≤ x2 → (2 : ℚ) ^ (-31 : ℤ) ≤ x3) ∧
      (x2 ≤ 1 - (2 : ℚ) ^ (-31 : ℤ) → x3 ≤ -(2 : ℚ) ^ (-31 : ℤ)) := by
  have habs : |x2 - 1| ≤ (2 : ℚ) ^ (0 : ℤ) := by
    rw [abs_le]; constructor <;> norm_num <;> linarith
  refine ⟨roundGrid 53 (-1074) (x2 - 1), ?_, ?_, ?_, ?_⟩
  · rw [dsub_fin]; exact toDouble_fin habs (by norm_num) (by norm_num)
  · simpa using @abs_roundGrid_le 53 (-1074) 0 _ (by norm_num) (by norm_num) habs
  · intro h
    exact le_roundGrid_zpow (by norm_num) (by norm_num) (by linarith)
  · intro h
    exact roundGrid_le_neg_zpow (by norm_num) (by norm_num) (by linarith)

/-- Multiplying a `double` of magnitude at most 1 by `1e+10`. -/
theorem dmul_1e10 {x3 : ℚ} (h : |x3| ≤ 1) :
    ∃ x4 : ℚ, dmul (fin x3) (dbl 1e10) = fin x4 ∧ |x4| ≤ 10000000000 ∧
      ((2 : ℚ) ^ (-31 : ℤ) ≤ x3 → 4 ≤ x4) ∧ (x3 ≤ -(2 : ℚ) ^ (-31 : ℤ) → x4 ≤ -4) := by
  have habs : |x3 * 10000000000| ≤ ((10000000000 : ℕ) : ℚ) := by
    rw [abs_mul, abs_of_pos (by norm_num : (0 : ℚ) < 10000000000)]
    push_cast
    nlinarith
  have habs2 : |x3 * 10000000000| ≤ (2 : ℚ) ^ (34 : ℤ) := habs.trans (by norm_num)
  refine ⟨roundGrid 53 (-1074) (x3 * 10000000000), ?_, ?_, ?_, ?_⟩
  · rw [dbl_1e10, dmul_fin]; exact toDouble_fin habs2 (by norm_num) (by norm_num)
  · have := abs_roundGrid_le_natCast habs (by norm_num)
    exact_mod_cast this
  · intro h1
    have h2 : (2 : ℚ) ^ (2 : ℤ) ≤ x3 * 10000000000 := by
      norm_num at h1 ⊢
      linarith
    have := @le_roundGrid_zpow 53 (-1074) 2 _ (by norm_num) (by norm_num) h2
    norm_num at this ⊢
    exact this
  · intro h1
    have h2 : x3 * 10000000000 ≤ -(2 : ℚ) ^ (2 : ℤ) := by
      norm_num at h1 ⊢
      linarith
    have := @roundGrid_le_neg_zpow 53 (-1074) 2 _ (by norm_num) (by norm_num) h2
    norm_num at this ⊢
    exact this

/-- The factor of `M_PI_4` in source line 278 is a `double` whose value is an
integer `k` with `4 <= |k| <= 10^10`. -/
theorem snap_multiplier {r : ℕ} (hr : r ≤ RAND_MAX) :
    ∃ k : ℤ, 4 ≤ |k| ∧ |k| ≤ 10 ^ 10 ∧
      rint (dmul (dsub (ddiv (dmul (fin 2) (toDouble (fin r))) (fin RAND_MAX)) (fin 1))
        (dbl 1e10)) = fin k := by
  obtain ⟨x2, e2, h0, h2, hup, hlo⟩ := scaled_eq hr
  obtain ⟨x3, e3, h3, hup3, hlo3⟩ := dsub_one h0 h2
  obtain ⟨x4, e4, h4, hup4, hlo4⟩ := dmul_1e10 h3
  rw [e2, e3, e4]
  obtain ⟨h4a, h4b⟩ := abs_le.mp h4
  have hk1 : (-10000000000 : ℤ) ≤ roundHalfEven x4 :=
    le_roundHalfEven (by push_cast; exact h4a)
  have hk2 : roundHalfEven x4 ≤ (10000000000 : ℤ) :=
    roundHalfEven_le (by push_cast; exact h4b)
  refine ⟨roundHalfEven x4, ?_, ?_, rfl⟩
  · by_cases hhalf : 2 ^ 30 ≤ r
    · have : (4 : ℤ) ≤ roundHalfEven x4 :=
        le_roundHalfEven (by push_cast; exact hup4 (hup3 (hup hhalf)))
      exact this.trans (le_abs_self _)
    · have : roundHalfEven x4 ≤ (-4 : ℤ) :=
        roundHalfEven_le (by push_cast; exact hlo4 (hlo3 (hlo (not_le.mp hhalf))))
      rw [abs_of_nonpos (by omega)]
      omega
  · rw [abs_le]
    constructor <;> omega

theorem M_PI_4_eq : M_PI_4 = fin (7074237752028440 / 2 ^ 53) := by
  have he : frexpExp (0.78539816339744830962 : ℚ) = 0 := by
    apply frexpExp_eq
    · rw [abs_of_pos (by norm_num)]; norm_num
    · rw [abs_of_pos (by norm_num)]; norm_num
  have hr : roundHalfEven ((0.78539816339744830962 : ℚ) / 2 ^ (-53 : ℤ)) =
      7074237752028440 := by
    apply roundHalfEven_eq_of_abs_sub_lt
    rw [abs_lt]
    constructor <;> norm_num
  have hg : roundGrid 53 (-1074) (0.78539816339744830962 : ℚ) =
      7074237752028440 / 2 ^ 53 := by
    unfold roundGrid roundAt
    rw [he, show max ((0 : ℤ) - ((53 : ℕ) : ℤ)) (-1074) = -53 by norm_num, hr]
    norm_num
  show roundNearest 53 (-1074) 1024 _ = _
  rw [roundNearest_of_lt, hg]
  rw [hg, abs_of_pos (by norm_num)]
  exact lt_of_lt_of_le (by norm_num : (7074237752028440 / 2 ^ 53 : ℚ) < 2 ^ (0 : ℤ))
    (two_zpow_le (by norm_num))

/-- The `double` constant `M_PI_4` is within `2^-54` of the real number `π / 4`. -/
theorem M_PI_4_near_pi :
    |((7074237752028440 / 2 ^ 53 : ℚ) : ℝ) - Real.pi / 4| < (2 : ℝ) ^ (-54 : ℤ) := by
  have h1 := Real.pi_gt_d20
  have h2 := Real.pi_lt_d20
  rw [abs_lt]
  constructor
  · norm_num at h1 h2 ⊢
    linarith
  · norm_num at h1 h2 ⊢
    linarith

/-- The offset added to the pattern in source line 279 lies between -127 and 128. -/
theorem addOffset_eq (bits r : ℕ) :
    ∃ off : ℤ, -127 ≤ off ∧ off ≤ 128 ∧
      addOffset bits r = (((bits : ℤ) + off) % 2 ^ 32).toNat := by
  refine ⟨((r &&& 0xff : ℕ) : ℤ) - 0x7f, ?_, ?_, rfl⟩
  · have : (0 : ℤ) ≤ ((r &&& 0xff : ℕ) : ℤ) := Int.natCast_nonneg _
    omega
  · have h : r &&& 0xff ≤ 0xff := Nat.and_le_right
    have : ((r &&& 0xff : ℕ) : ℤ) ≤ 255 := by exact_mod_cast h
    omega

/-- The first operand of stratum 1: the `float` nearest to the `double` product of
an integer `k`, `4 <= |k| <= 10^10`, and `M_PI_4`, with an offset between -127
and 128 added to its 32-bit pattern. -/
theorem nearPiQuarter_spec {r1 : ℕ} (r2 : ℕ) (hr : r1 ≤ RAND_MAX) :
    ∃ k off : ℤ, 4 ≤ |k| ∧ |k| ≤ 10 ^ 10 ∧ -127 ≤ off ∧ off ≤ 128 ∧
      nearPiQuarter r1 r2 = float_of_bits
        ((((bits_of_float (toFloat (dmul (fin k) M_PI_4)) : ℕ) : ℤ) + off) % 2 ^ 32).toNat := by
  obtain ⟨k, hk1, hk2, hk⟩ := snap_multiplier hr
  have hs : snapPiQuarter r1 = toFloat (dmul (fin k) M_PI_4) := by
    unfold snapPiQuarter
    rw [hk]
  obtain ⟨off, ho1, ho2, ho⟩ := addOffset_eq (bits_of_float (snapPiQuarter r1)) r2
  refine ⟨k, off, hk1, hk2, ho1, ho2, ?_⟩
  unfold nearPiQuarter
  rw [ho, hs]

/-! ## The filtered draws -/

theorem rnd_fr_post (rs : ℕ → ℕ) (fuel pos : ℕ) (v : FVal) (p : ℕ)
    (h : rnd_fr rs fuel pos = some (v, p)) : isnumber v = true := by
  induction fuel generalizing pos with
  | zero => simp [rnd_fr] at h
  | succ n ih =>
    unfold rnd_fr at h
    simp only at h
    by_cases hc : isnumber (float_of_bits (randomBits (rs pos) (rs (pos + 1)))) = true
    · simp only [hc, Bool.not_true, Bool.false_eq_true, if_false, Option.some.injEq,
        Prod.mk.injEq] at h
      rw [← h.1]; exact hc
    · simp only [hc, Bool.not_false, if_true] at h
      exact ih _ h

theorem rnd_zo_post (rs : ℕ → ℕ) (fuel pos : ℕ) (v : FVal) (p : ℕ)
    (h : rnd_zo rs fuel pos = some (v, p)) :
    isnumber v = true ∧ fle (fin (-1)) v = true ∧ fle v (fin 1) = true := by
  induction fuel generalizing pos with
  | zero => simp [rnd_zo] at h
  | succ n ih =>
    unfold rnd_zo at h
    simp only at h
    by_cases hc : (!isnumber (float_of_bits (randomBits (rs pos) (rs (pos + 1)))) ||
        flt (float_of_bits (randomBits (rs pos) (rs (pos + 1)))) (fin (-1)) ||
        flt (fin 1) (float_of_bits (randomBits (rs pos) (rs (pos + 1))))) = true
    · rw [if_pos hc] at h
      exact ih _ h
    · rw [if_neg hc] at h
      simp only [Option.some.injEq, Prod.mk.injEq] at h
      rw [h.1] at hc
      cases v with
      | nan => simp [isnumber, isnan, isinf] at hc
      | inf s => simp [isnumber, isnan, isinf] at hc
      | fin x =>
        simp only [isnumber, isinf, isnan, flt, Bool.not_false, Bool.and_self, Bool.not_true,
          Bool.false_or, Bool.or_eq_true, decide_eq_true_eq, not_or, not_lt] at hc
        refine ⟨rfl, ?_, ?_⟩
        · simp only [fle, flt, feq, Bool.or_eq_true, decide_eq_true_eq]
          exact lt_or_eq_of_le hc.1
        · simp only [fle, flt, feq, Bool.or_eq_true, decide_eq_true_eq]
          exact lt_or_eq_of_le hc.2

/-- The loop of `rnd_fr` returns as soon as one of the first `fuel` patterns is a
finite number. -/
theorem rnd_fr_returns (rs : ℕ → ℕ) (fuel pos : ℕ)
    (h : ∃ j, j < fuel ∧
      isnumber (float_of_bits (randomBits (rs (pos + 2 * j)) (rs (pos + 2 * j + 1)))) = true) :
    ∃ v p, rnd_fr rs fuel pos = some (v, p) := by
  induction fuel generalizing pos with
  | zero => obtain ⟨j, hj, -⟩ := h; omega
  | succ n ih =>
    unfold rnd_fr
    simp only
    by_cases hc : isnumber (float_of_bits (randomBits (rs pos) (rs (pos + 1)))) = true
    · simp only [hc, Bool.not_true, Bool.false_eq_true, if_false]
      exact ⟨_, _, rfl⟩
    · simp only [hc, Bool.not_false, if_true]
      apply ih
      obtain ⟨j, hj, ha⟩ := h
      cases j with
      | zero => exact absurd ha hc
      | succ j =>
        refine ⟨j, by omega, ?_⟩
        have e1 : pos + 2 + 2 * j = pos + 2 * (j + 1) := by ring
        rw [e1]
        exact ha

/-- The loop of `rnd_zo` returns as soon as one of the first `fuel` patterns is a
finite number of `[-1, 1]`. -/
theorem rnd_zo_returns (rs : ℕ → ℕ) (fuel pos : ℕ)
    (h : ∃ j, j < fuel ∧
      (!isnumber (float_of_bits (randomBits (rs (pos + 2 * j)) (rs (pos + 2 * j + 1)))) ||
        flt (float_of_bits (randomBits (rs (pos + 2 * j)) (rs (pos + 2 * j + 1)))) (fin (-1)) ||
        flt (fin 1) (float_of_bits (randomBits (rs (pos + 2 * j)) (rs (pos + 2 * j + 1))))) =
        false) :
    ∃ v p, rnd_zo rs fuel pos = some (v, p) := by
  induction fuel generalizing pos with
  | zero => obtain ⟨j, hj, -⟩ := h; omega
  | succ n ih =>
    unfold rnd_zo
    simp only
    by_cases hc : (!isnumber (float_of_bits (randomBits (rs pos) (rs (pos + 1)))) ||
        flt (float_of_bits (randomBits (rs pos) (rs (pos + 1)))) (fin (-1)) ||
        flt (fin 1) (float_of_bits (randomBits (rs pos) (rs (pos + 1))))) = true
    · rw [if_pos hc]
      apply ih
      obtain ⟨j, hj, ha⟩ := h
      cases j with
      | zero =>
        simp only [Nat.mul_zero, Nat.add_zero] at ha
        rw [ha] at hc
        exact absurd hc (by simp)
      | succ j =>
        refine ⟨j, by omega, ?_⟩
        have e1 : pos + 2 + 2 * j = pos + 2 * (j + 1) := by ring
        rw [e1]
        exact ha
    · rw [if_neg hc]
      exact ⟨_, _, rfl⟩

/-! ## The strata -/

theorem land_seven (cnt : ℕ) : cnt &&& 7 = cnt % 8 := by
  have := Nat.and_pow_two_sub_one_eq_mod cnt 3
  simpa using this

theorem sample_zero (rs : ℕ → ℕ) (fuel : ℕ) {cnt : ℕ} (pos : ℕ) (h : cnt % 8 = 0) :
    sample rs fuel cnt pos =
      some (⟨(rnd rs pos).1, (rnd rs (rnd rs pos).2).1,
          (rnd rs (rnd rs (rnd rs pos).2).2).1,
          (rnd rs (rnd rs (rnd rs (rnd rs pos).2).2).2).1⟩,
        (rnd rs (rnd rs (rnd rs (rnd rs pos).2).2).2).2) := by
  unfold sample
  rw [land_seven, h]

theorem sample_one (rs : ℕ → ℕ) (fuel : ℕ) {cnt : ℕ} (pos : ℕ) (h : cnt % 8 = 1) :
    sample rs fuel cnt pos =
      some (⟨nearPiQuarter (rs pos) (rs (pos + 1)), (rnd rs (pos + 2)).1,
          (rnd rs (rnd rs (pos + 2)).2).1,
          (rnd rs (rnd rs (rnd rs (pos + 2)).2).2).1⟩,
        (rnd rs (rnd rs (rnd rs (pos + 2)).2).2).2) := by
  unfold sample
  rw [land_seven, h]

/-- In the strata 2 to 7 the operands are the results of three calls of `rnd_fr` and
one call of `rnd_zo`, in this order. -/
theorem sample_default (rs : ℕ → ℕ) (fuel : ℕ) {cnt : ℕ} (pos : ℕ) (h : 2 ≤ cnt % 8) :
    sample rs fuel cnt pos =
      match rnd_fr rs fuel pos with
      | none => none
      | some a =>
        match rnd_fr rs fuel a.2 with
        | none => none
        | some b =>
          match rnd_fr rs fuel b.2 with
          | none => none
          | some c =>
            match rnd_zo rs fuel c.2 with
            | none => none
            | some z => some (⟨a.1, b.1, c.1, z.1⟩, z.2) := by
  obtain ⟨n, hn⟩ : ∃ n, cnt &&& 7 = n + 2 := ⟨cnt % 8 - 2, by rw [land_seven]; omega⟩
  unfold sample
  rw [hn]
  rfl

theorem sample_default_post (rs : ℕ → ℕ) (fuel : ℕ) {cnt : ℕ} (pos : ℕ) (h : 2 ≤ cnt % 8)
    (ops : Operands) (p : ℕ) (hs : sample rs fuel cnt pos = some (ops, p)) :
    isnumber ops.d = true ∧ isnumber ops.d2 = true ∧ isnumber ops.d3 = true ∧
      isnumber ops.zo = true ∧ fle (fin (-1)) ops.zo = true ∧ fle ops.zo (fin 1) = true := by
  rw [sample_default rs fuel pos h] at hs
  cases h1 : rnd_fr rs fuel pos with
  | none => rw [h1] at hs; simp at hs
  | some a =>
    rw [h1] at hs
    simp only at hs
    cases h2 : rnd_fr rs fuel a.2 with
    | none => rw [h2] at hs; simp at hs
    | some b =>
      rw [h2] at hs
      simp only at hs
      cases h3 : rnd_fr rs fuel b.2 with
      | none => rw [h3] at hs; simp at hs
      | some c =>
        rw [h3] at hs
        simp only at hs
        cases h4 : rnd_zo rs fuel c.2 with
        | none => rw [h4] at hs; simp at hs
        | some z =>
          rw [h4] at hs
          simp only [Option.some.injEq, Prod.mk.injEq] at hs
          obtain ⟨hops, -⟩ := hs
          subst hops
          have p1 := rnd_fr_post rs fuel pos a.1 a.2 h1
          have p2 := rnd_fr_post rs fuel a.2 b.1 b.2 h2
          have p3 := rnd_fr_post rs fuel b.2 c.1 c.2 h3
          have p4 := rnd_zo_post rs fuel c.2 z.1 z.2 h4
          exact ⟨p1, p2, p3, p4.1, p4.2.1, p4.2.2⟩

/-- A pattern that `rnd_zo` accepts is accepted by `rnd_fr`. -/
theorem isnumber_of_zo_accept {c : FVal}
    (h : (!isnumber c || flt c (fin (-1)) || flt (fin 1) c) = false) : isnumber c = true := by
  cases hc : isnumber c
  · rw [hc] at h; simp at h
  · rfl

/-- The draw of the operands returns in every stratum when, from every position of
the random stream on, one of the next `fuel` patterns is a finite number of
`[-1, 1]`. -/
theorem sample_returns (rs : ℕ → ℕ) (fuel cnt pos : ℕ)
    (h : ∀ q, ∃ j, j < fuel ∧
      (!isnumber (float_of_bits (randomBits (rs (q + 2 * j)) (rs (q + 2 * j + 1)))) ||
        flt (float_of_bits (randomBits (rs (q + 2 * j)) (rs (q + 2 * j + 1)))) (fin (-1)) ||
        flt (fin 1) (float_of_bits (randomBits (rs (q + 2 * j)) (rs (q + 2 * j + 1))))) =
        false) :
    ∃ ops p, sample rs fuel cnt pos = some (ops, p) := by
  have hfr : ∀ q, ∃ v p, rnd_fr rs fuel q = some (v, p) := by
    intro q
    obtain ⟨j, hj, ha⟩ := h q
    exact rnd_fr_returns rs fuel q ⟨j, hj, isnumber_of_zo_accept ha⟩
  have hzo : ∀ q, ∃ v p, rnd_zo rs fuel q = some (v, p) := fun q => rnd_zo_returns rs fuel q (h q)
  by_cases h0 : cnt % 8 = 0
  · exact ⟨_, _, sample_zero rs fuel pos h0⟩
  by_cases h1 : cnt % 8 = 1
  · exact ⟨_, _, sample_one rs fuel pos h1⟩
  rw [sample_default rs fuel pos (by omega)]
  obtain ⟨v1, p1, e1⟩ := hfr pos
  obtain ⟨v2, p2, e2⟩ := hfr p1
  obtain ⟨v3, p3, e3⟩ := hfr p2
  obtain ⟨v4, p4, e4⟩ := hzo p3
  rw [e1]
  simp only
  rw [e2]
  simp only
  rw [e3]
  simp only
  rw [e4]
  exact ⟨_, _, rfl⟩

/-- C11: for every non-negative iteration index `cnt` the stratum is `cnt mod 8`
(`cnt & 7` equals `cnt % 8`).  Index 0: the four operands are four calls of `rnd`
in the order `d, d2, d3, zo`.  Index 1: the first operand is the `float` nearest to
`k * M_PI_4` for an integer `k` with `4 <= |k| <= 10^10`, with an offset between
-127 and 128 added to its bit pattern (for a result of `random()` up to
`RAND_MAX`), and the other three are calls of `rnd`; the constant `M_PI_4` is
within `2^-54` of the real number `π / 4`.  Indices 2 to 7: when the
draw returns, `d`, `d2` and `d3` are finite numbers and `zo` is a finite number with
`-1 <= zo <= 1`, the post-conditions of `rnd_fr` and `rnd_zo`; and the draw does
return when, from every position of the random stream on, one of the next `fuel`
patterns is a finite number of `[-1, 1]`. -/
theorem C11_strata (rs : ℕ → ℕ) (fuel cnt pos : ℕ) :
    cnt &&& 7 = cnt % 8 ∧
      (cnt % 8 = 0 →
        sample rs fuel cnt pos =
          some (⟨(rnd rs pos).1, (rnd rs (rnd rs pos).2).1,
              (rnd rs (rnd rs (rnd rs pos).2).2).1,
              (rnd rs (rnd rs (rnd rs (rnd rs pos).2).2).2).1⟩,
            (rnd rs (rnd rs (rnd rs (rnd rs pos).2).2).2).2)) ∧
      (cnt % 8 = 1 →
        sample rs fuel cnt pos =
            some (⟨nearPiQuarter (rs pos) (rs (pos + 1)), (rnd rs (pos + 2)).1,
                (rnd rs (rnd rs (pos + 2)).2).1,
                (rnd rs (rnd rs (rnd rs (pos + 2)).2).2).1⟩,
              (rnd rs (rnd rs (rnd rs (pos + 2)).2).2).2) ∧
          (rs pos ≤ RAND_MAX →
            ∃ k off : ℤ, 4 ≤ |k| ∧ |k| ≤ 10 ^ 10 ∧ -127 ≤ off ∧ off ≤ 128 ∧
              nearPiQuarter (rs pos) (rs (pos + 1)) = float_of_bits
                ((((bits_of_float (toFloat (dmul (fin k) M_PI_4)) : ℕ) : ℤ) + off) %
                  2 ^ 32).toNat)) ∧
      (2 ≤ cnt % 8 →
        ∀ ops p, sample rs fuel cnt pos = some (ops, p) →
          isnumber ops.d = true ∧ isnumber ops.d2 = true ∧ isnumber ops.d3 = true ∧
            isnumber ops.zo = true ∧ fle (fin (-1)) ops.zo = true ∧
            fle ops.zo (fin 1) = true) ∧
      (∀ v p, rnd_fr rs fuel pos = some (v, p) → isnumber v = true) ∧
      (∀ v p, rnd_zo rs fuel pos = some (v, p) →
        isnumber v = true ∧ fle (fin (-1)) v = true ∧ fle v (fin 1) = true) ∧
      ((∀ q, ∃ j, j < fuel ∧
          (!isnumber (float_of_bits (randomBits (rs (q + 2 * j)) (rs (q + 2 * j + 1)))) ||
            flt (float_of_bits (randomBits (rs (q + 2 * j)) (rs (q + 2 * j + 1))))
              (fin (-1)) ||
            flt (fin 1)
              (float_of_bits (randomBits (rs (q + 2 * j)) (rs (q + 2 * j + 1))))) = false) →
        ∃ ops p, sample rs fuel cnt pos = some (ops, p)) ∧
      ∃ m : ℚ, M_PI_4 = fin m ∧ |(m : ℝ) - Real.pi / 4| < (2 : ℝ) ^ (-54 : ℤ) :=
  ⟨land_seven cnt, sample_zero rs fuel pos,
    fun h => ⟨sample_one rs fuel pos h, nearPiQuarter_spec (rs (pos + 1))⟩,
    sample_default_post rs fuel pos, rnd_fr_post rs fuel pos, rnd_zo_post rs fuel pos,
    sample_returns rs fuel cnt pos, ⟨_, M_PI_4_eq, M_PI_4_near_pi⟩⟩

theorem float_of_bits_zero : float_of_bits 0 = fin 0 := by
  simp [float_of_bits]

theorem randomBits_zero : randomBits 0 0 = 0 := by
  rw [randomBits_eq 0 (by norm_num)]
  norm_num

/-- C11, witness: with a random stream of zeros every pattern is 0, the value 0 is
accepted by both loops, and iteration 2 returns its four operands, all finite,
with `zo` in `[-1, 1]`. -/
theorem C11_strata_witness :
    (2 : ℕ) ≤ 2 % 8 ∧
      ∃ ops p, sample (fun _ => 0) 1 2 0 = some (ops, p) ∧ isnumber ops.d = true ∧
        isnumber ops.d2 = true ∧ isnumber ops.d3 = true ∧ isnumber ops.zo = true ∧
        fle (fin (-1)) ops.zo = true ∧ fle ops.zo (fin 1) = true := by
  have h := C11_strata (fun _ => 0) 1 2 0
  have hacc : ∀ q : ℕ, ∃ j, j < 1 ∧
      (!isnumber (float_of_bits (randomBits ((fun _ : ℕ => 0) (q + 2 * j))
          ((fun _ : ℕ => 0) (q + 2 * j + 1)))) ||
        flt (float_of_bits (randomBits ((fun _ : ℕ => 0) (q + 2 * j))
          ((fun _ : ℕ => 0) (q + 2 * j + 1)))) (fin (-1)) ||
        flt (fin 1) (float_of_bits (randomBits ((fun _ : ℕ => 0) (q + 2 * j))
          ((fun _ : ℕ => 0) (q + 2 * j + 1))))) = false := by
    intro q
    refine ⟨0, by norm_num, ?_⟩
    simp only [randomBits_zero, float_of_bits_zero, isnumber, isinf, isnan, flt]
    norm_num
  obtain ⟨ops, p, hs⟩ := h.2.2.2.2.2.2.1 hacc
  exact ⟨by norm_num, ops, p, hs, h.2.2.2.1 (by norm_num) ops p hs⟩

/-! ## The selector of `rnd` -/

theorem land_fifteen (r : ℕ) : r &&& 15 = r % 16 := by
  have := Nat.and_pow_two_sub_one_eq_mod r 4
  simpa using this

/-- Each value of the selector comes from `2^27` of the `2^31` results of `random()`. -/
theorem selector_card {sel : ℕ} (h : sel < 16) :
    ((Finset.range (2 ^ 31)).filter (fun r => r &&& 15 = sel)).card = 2 ^ 27 := by
  have e : (Finset.range (2 ^ 31)).filter (fun r => r &&& 15 = sel) =
      (Finset.range (2 ^ 27)).image (fun k => 16 * k + sel) := by
    ext r
    simp only [Finset.mem_filter, Finset.mem_range, Finset.mem_image, land_fifteen]
    constructor
    · rintro ⟨h1, h2⟩
      exact ⟨r / 16, by omega, by omega⟩
    · rintro ⟨k, hk, rfl⟩
      omega
  rw [e, Finset.card_image_of_injective, Finset.card_range]
  intro a b hab
  simp only at hab
  omega

/-- The results of `random()` for which `rnd` returns at once are `2^28` of the
`2^31`: one in eight. -/
theorem short_circuit_card :
    ((Finset.range (2 ^ 31)).filter (fun r => (rndSelect (r &&& 15)).isSome = true)).card =
      2 ^ 28 := by
  have hsel : ∀ r : ℕ, (rndSelect (r &&& 15)).isSome = true ↔ r % 16 < 2 := by
    intro r
    rw [land_fifteen]
    have hlt : r % 16 < 16 := Nat.mod_lt _ (by norm_num)
    generalize r % 16 = s at hlt
    match s with
    | 0 => simp [rndSelect]
    | 1 => simp [rndSelect]
    | n + 2 => simp [rndSelect]
  have e : (Finset.range (2 ^ 31)).filter (fun r => (rndSelect (r &&& 15)).isSome = true) =
      (Finset.range (2 ^ 28)).image (fun k => 16 * (k / 2) + k % 2) := by
    ext r
    simp only [Finset.mem_filter, Finset.mem_range, Finset.mem_image, hsel]
    constructor
    · rintro ⟨h1, h2⟩
      exact ⟨2 * (r / 16) + r % 16, by omega, by omega⟩
    · rintro ⟨k, hk, rfl⟩
      omega
  rw [e, Finset.card_image_of_injOn, Finset.card_range]
  intro a _ b _ hab
  simp only at hab
  omega

theorem rndSelect_none {sel : ℕ} (h : 2 ≤ sel) : rndSelect sel = none := by
  match sel, h with
  | n + 2, _ => rfl

theorem rnd_short (rs : ℕ → ℕ) (pos : ℕ) (h : rs pos &&& 15 < 2) :
    isinf (rnd rs pos).1 = true ∧ (rnd rs pos).2 = pos + 1 := by
  unfold rnd
  have : rs pos &&& 15 = 0 ∨ rs pos &&& 15 = 1 := by omega
  rcases this with e | e <;> rw [e] <;> exact ⟨rfl, rfl⟩

theorem rnd_pattern (rs : ℕ → ℕ) (pos : ℕ) (h : 2 ≤ rs pos &&& 15) :
    rnd rs pos = (float_of_bits (randomBits (rs (pos + 1)) (rs (pos + 2))), pos + 3) := by
  unfold rnd
  rw [rndSelect_none h]

/-- C12 (amended): exactly two of the sixteen equally likely values of the selector
`random() & 15` return at once, 0 with `+inf` and 1 with `-inf`; each selector
value comes from `2^27` of the `2^31` results of `random()`, so one draw in eight
(`2^28` of `2^31`) returns an infinity without a bit pattern being built, one in
sixteen for each sign; for the other fourteen values `rnd` builds a pattern from
two more calls of `random()`. -/
theorem C12_short_circuit :
    ((Finset.range 16).filter (fun sel => (rndSelect sel).isSome = true)).card = 2 ∧
      rndSelect 0 = some (inf false) ∧ rndSelect 1 = some (inf true) ∧
      (∀ sel, 2 ≤ sel → rndSelect sel = none) ∧
      (∀ sel, sel < 16 →
        ((Finset.range (2 ^ 31)).filter (fun r => r &&& 15 = sel)).card = 2 ^ 27) ∧
      ((Finset.range (2 ^ 31)).filter
        (fun r => (rndSelect (r &&& 15)).isSome = true)).card = 2 ^ 28 ∧
      ∀ (rs : ℕ → ℕ) (pos : ℕ),
        (rs pos &&& 15 < 2 → isinf (rnd rs pos).1 = true ∧ (rnd rs pos).2 = pos + 1) ∧
          (2 ≤ rs pos &&& 15 →
            rnd rs pos =
              (float_of_bits (randomBits (rs (pos + 1)) (rs (pos + 2))), pos + 3)) :=
  ⟨by decide, rfl, rfl, fun _ h => rndSelect_none h, fun _ h => selector_card h,
    short_circuit_card, fun rs pos => ⟨rnd_short rs pos, rnd_pattern rs pos⟩⟩

/-- C12 as stated fails: the selector values 0 and 1 both return at once, the first
with `+inf` and the second with `-inf`, each after a single call of `random()`;
the number of such values is 2, not 1. -/
theorem C12_counterexample :
    rndSelect 0 = some (inf false) ∧ rndSelect 1 = some (inf true) ∧
      rnd (fun _ => 0) 0 = (inf false, 1) ∧ rnd (fun _ => 1) 0 = (inf true, 1) ∧
      ((Finset.range 16).filter (fun sel => (rndSelect sel).isSome = true)).card ≠ 1 :=
  ⟨rfl, rfl, rfl, rfl, by decide⟩

theorem randomBits_eq_lor {r1 r2 : ℕ} (h1 : r1 < 2 ^ 31) :
    randomBits r1 r2 = (r1 ||| (r2 <<< 31)) % 2 ^ 32 := by
  rw [randomBits_eq r2 h1, lor_shift_mod r2 h1]

/-- Every 32-bit pattern is built from some pair of results of `random()`. -/
theorem randomBits_surj {u : ℕ} (hu : u < 2 ^ 32) :
    ∃ r1 r2, r1 < 2 ^ 31 ∧ r2 < 2 ^ 31 ∧ randomBits r1 r2 = u := by
  refine ⟨u % 2 ^ 31, u / 2 ^ 31, by omega, by omega, ?_⟩
  rw [randomBits_eq _ (by omega)]
  omega

/-- Every `float` value is the value of a pattern built from some pair of results of
`random()`. -/
theorem float_of_randomBits_surj {d : FVal} (h : IsFloat d) :
    ∃ r1 r2, r1 < 2 ^ 31 ∧ r2 < 2 ^ 31 ∧ float_of_bits (randomBits r1 r2) = d := by
  obtain ⟨e, hlt⟩ := float_of_bits_bits_of_float h
  obtain ⟨r1, r2, h1, h2, hb⟩ := randomBits_surj hlt
  exact ⟨r1, r2, h1, h2, by rw [hb, e]⟩

/-- C13: for `r1` and `r2` ranging over the 31-bit results of `random()`, the pattern
`(r1 | (r2 << 31)) mod 2^32`, which is the pattern `randomBits` of the source,
takes the value `u` for exactly `2^30` of the `2^62` pairs, whatever the 32-bit
pattern `u`; every pattern is reached, and every `float` value (NaN, the
infinities and the subnormal numbers included) is the value of a pattern that is
reached. -/
theorem C13_uniform_patterns (u : ℕ) (hu : u < 2 ^ 32) :
    ((Finset.range (2 ^ 31) ×ˢ Finset.range (2 ^ 31)).filter
        (fun p : ℕ × ℕ => (p.1 ||| (p.2 <<< 31)) % 2 ^ 32 = u)).card = 2 ^ 30 ∧
      (Finset.range (2 ^ 31) ×ˢ Finset.range (2 ^ 31)).card = 2 ^ 62 ∧
      (∀ r1 r2, r1 < 2 ^ 31 → r2 < 2 ^ 31 →
        randomBits r1 r2 = (r1 ||| (r2 <<< 31)) % 2 ^ 32) ∧
      (∃ r1 r2, r1 < 2 ^ 31 ∧ r2 < 2 ^ 31 ∧ randomBits r1 r2 = u) ∧
      (∀ d, IsFloat d →
        ∃ r1 r2, r1 < 2 ^ 31 ∧ r2 < 2 ^ 31 ∧ float_of_bits (randomBits r1 r2) = d) ∧
      float_of_bits 0x7fc00000 = nan ∧ float_of_bits 0x7f800000 = inf false ∧
      float_of_bits 0xff800000 = inf true ∧
      float_of_bits 1 = fin ((2 : ℚ) ^ (-149 : ℤ)) :=
  ⟨pattern_pairs_card hu, by rw [Finset.card_product, Finset.card_range]; norm_num,
    fun _ _ h1 _ => randomBits_eq_lor h1, randomBits_surj hu,
    fun _ h => float_of_randomBits_surj h, float_of_bits_nan, float_of_bits_pinf,
    float_of_bits_ninf, float_of_bits_one⟩

/-- C13, witness: the pattern `0x7fc00000` of a NaN. -/
theorem C13_uniform_patterns_witness :
    (0x7fc00000 : ℕ) < 2 ^ 32 ∧
      ((Finset.range (2 ^ 31) ×ˢ Finset.range (2 ^ 31)).filter
        (fun p : ℕ × ℕ => (p.1 ||| (p.2 <<< 31)) % 2 ^ 32 = 0x7fc00000)).card = 2 ^ 30 ∧
      ∃ r1 r2, r1 < 2 ^ 31 ∧ r2 < 2 ^ 31 ∧ randomBits r1 r2 = 0x7fc00000 :=
  ⟨by norm_num, (C13_uniform_patterns 0x7fc00000 (by norm_num)).1,
    (C13_uniform_patterns 0x7fc00000 (by norm_num)).2.2.2.1⟩

/-! ## The `sincospif` checks -/

theorem dbl_three_halves : dbl 1.5 = fin 1.5 := by
  show roundNearest 53 (-1074) 1024 (1.5 : ℚ) = fin 1.5
  refine roundNearest_eq_self 3 (-1) (by norm_num) (by norm_num) ?_ ?_
  · rw [abs_of_pos (by norm_num)]; norm_num
  · rw [abs_of_pos (by norm_num)]
    exact lt_of_lt_of_le (by norm_num : (1.5 : ℚ) < 2 ^ (1 : ℤ)) (two_zpow_le (by norm_num))

/-- A metric above 1.5 is above the constant `0.505`. -/
theorem fgt_0505_of_fgt_15 {u : FVal} (h : fgt u (dbl 1.5) = true) :
    fgt u (dbl 0.505) = true := by
  obtain ⟨r, hr, -, h2⟩ := @dbl_bounds 0.505 (-1) 0 (by norm_num) (by norm_num)
    (by norm_num) (by norm_num)
  rw [dbl_three_halves] at h
  rw [hr]
  cases u with
  | nan => simp [fgt, flt] at h
  | inf s => cases s <;> simp [fgt, flt] at h ⊢
  | fin x =>
    simp only [fgt, flt, decide_eq_true_eq] at h ⊢
    have : r ≤ 1 := by simpa using h2
    norm_num at h
    linarith

/-- The `sincospif_u35 cos` check fails only when the `sincospif_u05 cos` check
fails: both read the same candidate `sc.y`. -/
theorem u05Cos_of_u35Cos {d : FVal} {sc sc2 : VFloat2} {frx : FVal}
    (h : sincospif_u35CosFails d sc sc2 frx = true) :
    sincospif_u05CosFails d sc sc2 frx = true := by
  unfold sincospif_u35CosFails at h
  unfold sincospif_u05CosFails
  simp only [Bool.and_eq_true, Bool.or_eq_true] at h ⊢
  obtain ⟨h0, h1⟩ := h
  refine ⟨h0, ?_⟩
  rcases h1 with (⟨ha, hb⟩ | hb) | hb
  · exact Or.inl (Or.inl ⟨ha, fgt_0505_of_fgt_15 hb⟩)
  · exact Or.inl (Or.inr hb)
  · exact Or.inr hb

/-- The `sincospif_u35 sin` check does read the result of `xsincospif_u35`. -/
theorem u35Sin_reads_sc2 :
    sincospif_u35SinFails (fin 0) ⟨nan, nan⟩ ⟨nan, nan⟩ nan = false ∧
      sincospif_u35SinFails (fin 0) ⟨nan, nan⟩ ⟨inf false, nan⟩ nan = true := by
  have h1 : countULP2 nan nan = fin 0 := countULP2_both_nan rfl rfl
  have h2 : countULP2 (inf false) nan = fin 10001 := countULP2_one_nan (by decide) (by decide)
  constructor
  · unfold sincospif_u35SinFails
    simp only [h1]
    simp [fne, feq]
  · unfold sincospif_u35SinFails
    simp only [h2]
    simp [fne, feq, isnumber, isinf]

/-- C14: the `sincospif_u35 cos` check does not read the result `sc2` of
`xsincospif_u35`.  Two executions with the same input `d`, the same result `sc` of
`xsincospif_u05` and the same oracle value have the same verdict whatever the two
results of `xsincospif_u35`; the verdict is the condition of the check on the
cosine `sc.y` of the u05 result with the threshold 1.5, so it holds only when the
`sincospif_u05 cos` check fails too; the two cosine checks together leave the
failure counter the same in both executions; whereas the `sincospif_u35 sin`
check does read `sc2.x`. -/
theorem C14_u35_cos_ignores_u35 (d : FVal) (sc sc2 sc2' : VFloat2) (frx : FVal) :
    sincospif_u35CosFails d sc sc2 frx = sincospif_u35CosFails d sc sc2' frx ∧
      sincospif_u35CosFails d sc sc2 frx =
        (fne (countULP2 sc.y frx) (fin 0) &&
          ((fle (fabs d) rangemax2 && fgt (countULP2 sc.y frx) (dbl 1.5)) ||
            fgt (fabs sc.y) (fin 1) || !isnumber sc.y)) ∧
      (sincospif_u35CosFails d sc sc2 frx = true →
        sincospif_u05CosFails d sc sc2 frx = true) ∧
      (∀ ecnt,
        record (sincospif_u35CosFails d sc sc2 frx)
            (record (sincospif_u05CosFails d sc sc2 frx) ecnt) =
          record (sincospif_u35CosFails d sc sc2' frx)
            (record (sincospif_u05CosFails d sc sc2' frx) ecnt)) ∧
      (∀ frs ecnt, sc2.x = sc2'.x →
        sincospifBlocks d sc sc2 frs frx ecnt = sincospifBlocks d sc sc2' frs frx ecnt) ∧
      (sincospif_u35SinFails (fin 0) ⟨nan, nan⟩ ⟨nan, nan⟩ nan = false ∧
        sincospif_u35SinFails (fin 0) ⟨nan, nan⟩ ⟨inf false, nan⟩ nan = true) := by
  refine ⟨rfl, rfl, u05Cos_of_u35Cos, fun _ => rfl, fun frs ecnt hx => ?_, u35Sin_reads_sc2⟩
  unfold sincospifBlocks sincospif_u35SinFails sincospif_u05SinFails sincospif_u35CosFails
    sincospif_u05CosFails
  rw [hx]

end Tester
